import Mathlib

/-!
Verification of the time-alignment and spike-table core of the
xenopus-neuropixels repository (src/data.py, src/proc.py).

Shallow embedding conventions:
* numpy float arrays are embedded as `List ℚ` (exact rational arithmetic in
  place of IEEE floats; none of the verified claims depends on rounding);
* integer arrays are `List ℕ`;
* pandas dataframes are lists of per-row structures; `groupby` keys are
  enumerated in ascending order, as pandas does; `merge(on=k)` is embedded as
  the order-preserving inner join (for each left row, all matching right rows);
* python exceptions are `Option.none` results;
* `np.searchsorted` (default side, which is left) on a sorted array returns the
  number of elements strictly below the probe, which is how it is embedded;
* `np.empty` produces unspecified memory; it is embedded as an explicit
  `init` argument so that "never written" cells keep their `init` value.
-/

namespace XNPX

/-- One row of the long-form spikes dataframe (columns ts, cluster_id, depth,
cell_id) as produced by `get_concatenated_spikes` and consumed by the filter
and re-indexing routines of data.py. -/
structure SpikeRow where
  ts : ℚ
  cluster_id : ℕ
  depth : ℚ
  cell_id : ℕ
  deriving Repr, DecidableEq

/-- One row of the cluster quality-metrics dataframe (the columns actually
read by data.py's filter routines). -/
structure MetricRow where
  cluster_id : ℕ
  isi_viol : ℚ
  amplitude_cutoff : ℚ
  presence_ratio : ℚ
  depth : ℚ
  deriving Repr, DecidableEq

/-- `np.searchsorted(a, v)` with the default left side: for a sorted array
`a`, the insertion index of `v`, i.e. the number of entries strictly below
`v`.  numpy requires `a` sorted; on sorted input this count is exactly the
index returned by the binary search. -/
def searchsorted (a : List ℚ) (v : ℚ) : ℕ :=
  a.countP (fun x => decide (x < v))

/-- numpy integer indexing `x[i]` with python negative-index semantics:
a negative `i` counts from the end of the array. -/
def npGet (x : List ℚ) (i : ℤ) : ℚ :=
  if i < 0 then x.getD (x.length - (-i).toNat) 0 else x.getD i.toNat 0

/-- proc.remap_time_basis: map the signal `x` (sampled at times `x_t`) onto
the time basis `y_t` by `idx = np.searchsorted(x_t, y_t) - 1; return x[idx]`.
The python `assert len(x) == len(x_t)` is carried as a hypothesis of the
theorems about it. -/
def remap_time_basis (x x_t y_t : List ℚ) : List ℚ :=
  y_t.map (fun t => npGet x ((searchsorted x_t t : ℤ) - 1))

/-- On a strictly increasing list, `searchsorted` at the i-th element
returns `i`: exactly the entries before position `i` are strictly below it. -/
theorem searchsorted_self (l : List ℚ) (hl : l.Pairwise (· < ·)) (i : ℕ)
    (hi : i < l.length) : searchsorted l (l.get ⟨i, hi⟩) = i := by
  induction l generalizing i with
  | nil => simp at hi
  | cons a t ih =>
    have ha : ∀ x ∈ t, a < x := (List.pairwise_cons.mp hl).1
    rcases i with _ | j
    · show (a :: t).countP (fun x => decide (x < a)) = 0
      rw [List.countP_eq_zero]
      intro x hx
      rcases List.mem_cons.mp hx with h | h
      · simp [h]
      · simpa using not_lt.mpr (le_of_lt (ha x h))
    · have hj : j < t.length := by simpa using hi
      have hv : (a :: t).get ⟨j + 1, hi⟩ = t.get ⟨j, hj⟩ := rfl
      rw [hv]
      show (a :: t).countP (fun x => decide (x < t.get ⟨j, hj⟩)) = j + 1
      rw [List.countP_cons]
      have haj : a < t.get ⟨j, hj⟩ := ha _ (t.get_mem j hj)
      have hc := ih (List.pairwise_cons.mp hl).2 j hj
      simp only [searchsorted] at hc
      simp only [List.get_eq_getElem] at hc haj ⊢
      simp [hc, haj]

/-- Claim C5 counterexample: remapping `x = [1,2]` from its own strictly
increasing time basis `[0,1]` onto itself does NOT return `x`: the left-sided
`searchsorted` minus one yields index `i-1` at every exact sample time, so the
result is `[2,1]` (the last sample wraps to the front), not `[1,2]`. -/
theorem remap_time_basis_roundtrip_false :
    remap_time_basis [1, 2] [0, 1] [0, 1] ≠ [1, 2] := by decide

/-- Claim C5 (amended): remapping a non-empty signal `x` (with strictly
increasing time basis `x_t`, `len x = len x_t` as python asserts) onto its own
time basis returns `x` cyclically shifted one step to the right: position 0
receives the LAST sample of `x` and position `i+1` receives `x[i]`. -/
theorem remap_time_basis_self (x x_t : List ℚ) (hx : x ≠ [])
    (hlen : x.length = x_t.length) (hsort : x_t.Pairwise (· < ·)) :
    remap_time_basis x x_t x_t = x.getLast hx :: x.dropLast := by
  have hxlen : 0 < x.length := List.length_pos.mpr hx
  apply List.ext_getElem
  · simp [remap_time_basis, ← hlen]
    omega
  · intro i hi hi'
    simp only [remap_time_basis, List.getElem_map]
    have hixt : i < x_t.length := by simpa [remap_time_basis] using hi
    have hss : searchsorted x_t x_t[i] = i := searchsorted_self x_t hsort i hixt
    rcases i with _ | j
    · -- position 0: index -1, numpy wraps to the last element
      simp only [hss, npGet]
      norm_num
      rw [List.getElem?_eq_getElem (show x.length - 1 < x.length by omega)]
      simp [List.getLast_eq_getElem]
    · -- position j+1: index j
      have hjx : j < x.length := by
        have : j + 1 < x_t.length := hixt
        omega
      simp only [hss, npGet]
      norm_num
      rw [if_neg (by omega), List.getElem?_eq_getElem hjx]
      simp

/-- Witness for C5 (amended) at `x = [3,4,5]`, `x_t = [0,1,2]`. -/
theorem remap_time_basis_self_witness :
    remap_time_basis [3, 4, 5] [0, 1, 2] [0, 1, 2] = 5 :: [3, 4] := by
  have h := remap_time_basis_self [3, 4, 5] [0, 1, 2] (by decide)
    (by decide) (by decide)
  simpa using h

/-- Claim C10: if a target time `y_t[j]` is strictly earlier than the first
source time `x_t[0]`, `remap_time_basis` places the LAST element of `x` at
position `j`: the computed index is `-1`, which numpy indexing resolves to the
final sample (not the first sample, and no error is raised). -/
theorem remap_time_basis_before_first (x x_t y_t : List ℚ) (hx : x ≠ [])
    (hlen : x.length = x_t.length) (hsort : x_t.Pairwise (· ≤ ·))
    (hxt : x_t ≠ []) (j : ℕ) (hj : j < y_t.length)
    (hbefore : y_t[j] < x_t.head hxt) :
    (remap_time_basis x x_t y_t).getD j 0 = x.getLast hx := by
  have hss : searchsorted x_t y_t[j] = 0 := by
    rw [searchsorted, List.countP_eq_zero]
    intro e he
    rcases x_t with _ | ⟨h0, rest⟩
    · simp at he
    · have h0le : h0 ≤ e := by
        rcases List.mem_cons.mp he with rfl | hmem
        · exact le_refl _
        · exact (List.pairwise_cons.mp hsort).1 e hmem
      have : ¬ e < y_t[j] := not_lt.mpr (le_of_lt (lt_of_lt_of_le hbefore h0le))
      simpa using this
  have hmap : (remap_time_basis x x_t y_t).getD j 0
      = npGet x ((searchsorted x_t y_t[j] : ℤ) - 1) := by
    rw [remap_time_basis, List.getD_eq_getElem _ 0 (by simpa using hj),
      List.getElem_map]
  rw [hmap, hss]
  simp only [npGet]
  norm_num
  have hxlen : 0 < x.length := List.length_pos.mpr hx
  rw [List.getElem?_eq_getElem (show x.length - 1 < x.length by omega)]
  simp [List.getLast_eq_getElem]

/-- Witness for C10 at `x = [3,4]`, `x_t = [0,1]`, target time `-5`. -/
theorem remap_time_basis_before_first_witness :
    (remap_time_basis [3, 4] [0, 1] [-5]).getD 0 0 = (4 : ℚ) := by
  have h := remap_time_basis_before_first [3, 4] [0, 1] [-5] (by decide)
    (by decide) (by decide) (by decide) 0 (by decide) (by norm_num)
  simpa using h

/-- Indices of rising transitions of a thresholded signal, mirroring
`np.where(np.diff(xbool.astype(int)) == 1)[0]`: the positions `i` with
`xbool[i] = false` and `xbool[i+1] = true`. -/
def rises (bs : List Bool) : List ℕ :=
  (List.range (bs.length - 1)).filter
    (fun i => !bs.getD i false && bs.getD (i + 1) false)

/-- Indices of falling transitions, `np.where(np.diff(...) == -1)[0]`. -/
def falls (bs : List Bool) : List ℕ :=
  (List.range (bs.length - 1)).filter
    (fun i => bs.getD i false && !bs.getD (i + 1) false)

/-- data.binary_onsets (proc.binary_onsets is the identical code): threshold
the signal (`x > thresh`), locate rising and falling transitions, drop the
first offset when the signal starts above threshold and the last onset when
it ends above threshold, and raise (`none`) when the corrected counts
disagree.  An empty signal also raises (IndexError on `xbool[0]`). -/
def binary_onsets_raw (x : List ℚ) (thresh : ℚ) : List ℕ × List ℕ :=
  let xbool := x.map (fun v => decide (thresh < v))
  let ons0 := rises xbool
  let offs0 := falls xbool
  (if xbool.getLastD false then ons0.dropLast else ons0,
   if xbool.headD false then offs0.tail else offs0)

def binary_onsets (x : List ℚ) (thresh : ℚ) : Option (List ℕ × List ℕ) :=
  if x.isEmpty then none
  else
    let p := binary_onsets_raw x thresh
    if p.1.length = p.2.length then some p else none

/-- Index-carrying recursive form of `rises`, used for induction. -/
def risesAux (i : ℕ) : List Bool → List ℕ
  | a :: b :: rest => (if !a && b then [i] else []) ++ risesAux (i + 1) (b :: rest)
  | _ => []

/-- Index-carrying recursive form of `falls`. -/
def fallsAux (i : ℕ) : List Bool → List ℕ
  | a :: b :: rest => (if a && !b then [i] else []) ++ fallsAux (i + 1) (b :: rest)
  | _ => []

theorem rises_cons_cons (a b : Bool) (rest : List Bool) :
    rises (a :: b :: rest)
      = (if (!a && b) = true then [0] else []) ++ (rises (b :: rest)).map Nat.succ := by
  simp only [rises, List.length_cons]
  have h2 : rest.length + 1 + 1 - 1 = (rest.length + 1 - 1) + 1 := by omega
  rw [h2, List.range_succ_eq_map, List.filter_cons, List.filter_map]
  simp only [List.getD_cons_zero, List.getD_cons_succ, Function.comp_def]
  split <;> simp

theorem falls_cons_cons (a b : Bool) (rest : List Bool) :
    falls (a :: b :: rest)
      = (if (a && !b) = true then [0] else []) ++ (falls (b :: rest)).map Nat.succ := by
  simp only [falls, List.length_cons]
  have h2 : rest.length + 1 + 1 - 1 = (rest.length + 1 - 1) + 1 := by omega
  rw [h2, List.range_succ_eq_map, List.filter_cons, List.filter_map]
  simp only [List.getD_cons_zero, List.getD_cons_succ, Function.comp_def]
  split <;> simp

theorem risesAux_eq_map : ∀ (l : List Bool) (i : ℕ),
    risesAux i l = (rises l).map (· + i)
  | [], _ => by simp [risesAux, rises]
  | [a], _ => by simp [risesAux, rises]
  | a :: b :: rest, i => by
    rw [risesAux, rises_cons_cons, List.map_append, List.map_map,
      risesAux_eq_map (b :: rest) (i + 1)]
    congr 1
    · split <;> simp
    · apply List.map_congr_left
      intro v _
      simp [Nat.succ_eq_add_one]
      omega

theorem fallsAux_eq_map : ∀ (l : List Bool) (i : ℕ),
    fallsAux i l = (falls l).map (· + i)
  | [], _ => by simp [fallsAux, falls]
  | [a], _ => by simp [fallsAux, falls]
  | a :: b :: rest, i => by
    rw [fallsAux, falls_cons_cons, List.map_append, List.map_map,
      fallsAux_eq_map (b :: rest) (i + 1)]
    congr 1
    · split <;> simp
    · apply List.map_congr_left
      intro v _
      simp [Nat.succ_eq_add_one]
      omega

theorem rises_eq_risesAux (l : List Bool) : rises l = risesAux 0 l := by
  rw [risesAux_eq_map]
  simp

theorem falls_eq_fallsAux (l : List Bool) : falls l = fallsAux 0 l := by
  rw [fallsAux_eq_map]
  simp

/-- Proper pairing of onset indices `us` against offset indices `ds`:
position for position, each onset precedes its offset, and there is at most
one trailing unmatched onset. -/
inductive UpDown : List ℕ → List ℕ → Prop
  | nil : UpDown [] []
  | up_last (u : ℕ) : UpDown [u] []
  | step (u d : ℕ) (us ds : List ℕ) (hud : u < d) (h : UpDown us ds) :
      UpDown (u :: us) (d :: ds)

/-- Pairing shape when the signal starts above threshold: one leading
unmatched offset, then a proper pairing. -/
def DownUp (us ds : List ℕ) : Prop :=
  (us = [] ∧ ds = []) ∨ ∃ d ds', ds = d :: ds' ∧ UpDown us ds'

theorem UpDown.lengths {us ds : List ℕ} (h : UpDown us ds) :
    us.length = ds.length ∨ us.length = ds.length + 1 := by
  induction h with
  | nil => left; rfl
  | up_last u => right; rfl
  | step u d us ds hud h ih =>
    rcases ih with h1 | h1
    · left; simp [h1]
    · right; simp [h1]

theorem UpDown.pointwise {us ds : List ℕ} (h : UpDown us ds) :
    ∀ k, k < us.length → k < ds.length → us.getD k 0 < ds.getD k 0 := by
  induction h with
  | nil => intro k hk; simp at hk
  | up_last u => intro k _ hk; simp at hk
  | step u d us ds hud h ih =>
    intro k hk hk'
    rcases k with _ | j
    · simpa using hud
    · simpa using ih j (by simpa using hk) (by simpa using hk')

theorem risesAux_bound : ∀ (l : List Bool) (i v : ℕ), v ∈ risesAux i l → i ≤ v
  | [], _, _ => by simp [risesAux]
  | [a], _, _ => by simp [risesAux]
  | a :: b :: rest, i, v => by
    intro hv
    rw [risesAux] at hv
    rcases List.mem_append.mp hv with h | h
    · split at h <;> simp_all
    · have := risesAux_bound (b :: rest) (i + 1) v h
      omega

theorem fallsAux_bound : ∀ (l : List Bool) (i v : ℕ), v ∈ fallsAux i l → i ≤ v
  | [], _, _ => by simp [fallsAux]
  | [a], _, _ => by simp [fallsAux]
  | a :: b :: rest, i, v => by
    intro hv
    rw [fallsAux] at hv
    rcases List.mem_append.mp hv with h | h
    · split at h <;> simp_all
    · have := fallsAux_bound (b :: rest) (i + 1) v h
      omega

/-- Core alternation invariant: scanning from a below-threshold start the
rises and falls pair up properly (`UpDown`); from an above-threshold start
there is one leading fall (`DownUp`). -/
theorem upDown_scan : ∀ (l : List Bool) (i : ℕ),
    UpDown (risesAux i (false :: l)) (fallsAux i (false :: l)) ∧
    DownUp (risesAux i (true :: l)) (fallsAux i (true :: l)) := by
  intro l
  induction l with
  | nil =>
    intro i
    constructor
    · simpa [risesAux, fallsAux] using UpDown.nil
    · left; simp [risesAux, fallsAux]
  | cons b rest ih =>
    intro i
    constructor
    · cases b with
      | false =>
        simpa [risesAux, fallsAux] using (ih (i + 1)).1
      | true =>
        simp only [risesAux, fallsAux]
        norm_num
        rcases (ih (i + 1)).2 with ⟨hu, hd⟩ | ⟨d, ds', hds, hupdown⟩
        · rw [hu, hd]
          exact UpDown.up_last i
        · rw [hds]
          refine UpDown.step i d _ _ ?_ hupdown
          have := fallsAux_bound (true :: rest) (i + 1) d (by rw [hds]; simp)
          omega
    · cases b with
      | true =>
        simpa [risesAux, fallsAux] using (ih (i + 1)).2
      | false =>
        simp only [risesAux, fallsAux]
        norm_num
        right
        exact ⟨i, fallsAux (i + 1) (false :: rest), rfl, (ih (i + 1)).1⟩

theorem dropLast_getD (l : List ℕ) (k : ℕ) (hk : k < l.length - 1) :
    l.dropLast.getD k 0 = l.getD k 0 := by
  have h1 : k < l.dropLast.length := by simpa using hk
  have h2 : k < l.length := by omega
  rw [List.getD_eq_getElem _ _ h1, List.getD_eq_getElem _ _ h2,
    List.getElem_dropLast]

theorem updown_after_corrections {us ds us1 : List ℕ}
    (h : UpDown us ds) (hus : us1 = us ∨ us1 = us.dropLast) :
    ∀ k, k < us1.length → k < ds.length → us1.getD k 0 < ds.getD k 0 := by
  intro k hk hk'
  rcases hus with rfl | rfl
  · exact h.pointwise k hk hk'
  · have hk2 : k < us.length - 1 := by simpa using hk
    rw [dropLast_getD us k hk2]
    exact h.pointwise k (by omega) hk'


theorem binary_onsets_raw_pointwise (x0 : ℚ) (xr : List ℚ) (thresh : ℚ) :
    ∀ k, k < (binary_onsets_raw (x0 :: xr) thresh).1.length →
      k < (binary_onsets_raw (x0 :: xr) thresh).2.length →
      (binary_onsets_raw (x0 :: xr) thresh).1.getD k 0
        < (binary_onsets_raw (x0 :: xr) thresh).2.getD k 0 := by
  have hxb : (x0 :: xr).map (fun v => decide (thresh < v))
      = decide (thresh < x0) :: xr.map (fun v => decide (thresh < v)) := by simp
  simp only [binary_onsets_raw, hxb]
  set brest := xr.map (fun v => decide (thresh < v)) with hbr
  by_cases hb : thresh < x0
  · -- starts above threshold: the leading offset is dropped
    simp only [decide_eq_true hb, List.headD_cons, if_true]
    have hdu : DownUp (rises (true :: brest)) (falls (true :: brest)) := by
      rw [rises_eq_risesAux, falls_eq_fallsAux]
      exact (upDown_scan brest 0).2
    rcases hdu with ⟨hre, hfe⟩ | ⟨d, ds', hds, hupdown⟩
    · rw [hre, hfe]
      intro k hk hk'
      split at hk <;> simp at hk
    · rw [hds]
      have htail : (d :: ds').tail = ds' := rfl
      rw [htail]
      split
      · exact updown_after_corrections hupdown (Or.inr rfl)
      · exact updown_after_corrections hupdown (Or.inl rfl)
  · -- starts below threshold: no offset dropped
    simp only [decide_eq_false hb, List.headD_cons, Bool.false_eq_true, if_false]
    have hud : UpDown (rises (false :: brest)) (falls (false :: brest)) := by
      rw [rises_eq_risesAux, falls_eq_fallsAux]
      exact (upDown_scan brest 0).1
    split
    · exact updown_after_corrections hud (Or.inr rfl)
    · exact updown_after_corrections hud (Or.inl rfl)

/-- Claim C4: whenever `binary_onsets` returns (rather than raising), the
corrected onset and offset index lists have equal length and each offset
strictly follows its paired onset. -/
theorem binary_onsets_paired (x : List ℚ) (thresh : ℚ) (ons offs : List ℕ)
    (h : binary_onsets x thresh = some (ons, offs)) :
    ons.length = offs.length ∧
      ∀ k, k < ons.length → k < offs.length → ons.getD k 0 < offs.getD k 0 := by
  rcases x with _ | ⟨x0, xr⟩
  · simp [binary_onsets] at h
  simp only [binary_onsets, List.isEmpty_cons, Bool.false_eq_true, if_false] at h
  split at h
  case isTrue hlen =>
    have hinj := Option.some.inj h
    have hons : (binary_onsets_raw (x0 :: xr) thresh).1 = ons :=
      congrArg Prod.fst hinj
    have hoffs : (binary_onsets_raw (x0 :: xr) thresh).2 = offs :=
      congrArg Prod.snd hinj
    refine ⟨by rw [← hons, ← hoffs]; exact hlen, ?_⟩
    rw [← hons, ← hoffs]
    exact binary_onsets_raw_pointwise x0 xr thresh
  case isFalse => exact absurd h (by simp)

/-- Witness for C4 at the spec's concrete scenario
`x = [0,0,2,2,0,0,2,2,0]`, threshold 1: onsets `[1,5]`, offsets `[3,7]`. -/
theorem binary_onsets_paired_witness :
    ([1, 5] : List ℕ).length = ([3, 7] : List ℕ).length ∧
      ∀ k, k < ([1, 5] : List ℕ).length → k < ([3, 7] : List ℕ).length →
        ([1, 5] : List ℕ).getD k 0 < ([3, 7] : List ℕ).getD k 0 :=
  binary_onsets_paired [0, 0, 2, 2, 0, 0, 2, 2, 0] 1 [1, 5] [3, 7] (by decide)

/-- `np.linspace(a, b, n)`: `n` evenly spaced values from `a` to `b`, both
endpoints included (`a + j*(b-a)/(n-1)`); `[a]` for `n = 1`, `[]` for 0. -/
def linspace (a b : ℚ) (n : ℕ) : List ℚ :=
  match n with
  | 0 => []
  | 1 => [a]
  | k + 2 => (List.range (k + 2)).map
      (fun (j : ℕ) => a + (j : ℚ) * (b - a) / ((k : ℚ) + 1))

theorem linspace_length (a b : ℚ) (n : ℕ) : (linspace a b n).length = n := by
  match n with
  | 0 => rfl
  | 1 => rfl
  | k + 2 => simp [linspace]

theorem linspace_head (a b : ℚ) (n : ℕ) (hn : 0 < n) :
    (linspace a b n).head? = some a := by
  match n with
  | 1 => rfl
  | k + 2 =>
    rw [linspace, List.range_succ_eq_map]
    simp

theorem linspace_getLast_two (a b : ℚ) (k : ℕ) :
    (linspace a b (k + 2)).getLast? = some b := by
  rw [linspace, List.getLast?_eq_getElem?]
  have hlen : ((List.range (k + 2)).map
      (fun (j : ℕ) => a + (j : ℚ) * (b - a) / ((k : ℚ) + 1))).length = k + 2 := by
    simp
  rw [hlen]
  have hidx : k + 2 - 1 = k + 1 := by omega
  rw [hidx, List.getElem?_eq_getElem (by simp)]
  simp only [List.getElem_map, List.getElem_range, Option.some.injEq]
  have hk : ((k : ℚ) + 1) ≠ 0 := by positivity
  push_cast
  field_simp

theorem linspace_getLast_le (a b : ℚ) (n : ℕ) (hab : a ≤ b) :
    ∀ v ∈ (linspace a b n).getLast?, v ≤ b := by
  match n with
  | 0 => simp [linspace]
  | 1 =>
    intro v hv
    simp only [linspace, List.getLast?_singleton, Option.mem_def,
      Option.some.injEq] at hv
    subst hv
    exact hab
  | k + 2 =>
    intro v hv
    rw [linspace_getLast_two a b k] at hv
    simp only [Option.mem_def, Option.some.injEq] at hv
    subst hv
    exact le_refl b

theorem linspace_chain (a b : ℚ) (n : ℕ) (hab : a ≤ b) :
    (linspace a b n).Chain' (· ≤ ·) := by
  match n with
  | 0 => simp [linspace]
  | 1 => simp [linspace]
  | k + 2 =>
    rw [linspace, List.chain'_iff_pairwise, List.pairwise_map]
    have hstep : (0 : ℚ) ≤ (b - a) / ((k : ℚ) + 1) :=
      div_nonneg (by linarith) (by positivity)
    refine (List.pairwise_lt_range (k + 2)).imp ?_
    intro i j hij
    have hc : (i : ℚ) ≤ (j : ℚ) := by exact_mod_cast le_of_lt hij
    rw [mul_div_assoc, mul_div_assoc]
    exact add_le_add_left (mul_le_mul_of_nonneg_right hc hstep) a

theorem linspace_getD_zero (a b : ℚ) (n : ℕ) (hn : 0 < n) :
    (linspace a b n).getD 0 0 = a := by
  have hh := linspace_head a b n hn
  cases hl : linspace a b n with
  | nil => rw [hl] at hh; simp at hh
  | cons c t =>
    rw [hl] at hh
    simp only [List.head?_cons, Option.some.injEq] at hh
    simp [hh]

/-- The interior of get_tvec's interpolation loop: for consecutive onsets
`onsets[ii] < onsets[ii+1]` the source assigns
`tvec[onsets[ii]:onsets[ii+1]] = linspace(ts[ii], ts[ii+1], onsets[ii+1]-onsets[ii])`;
the slices tile `[onsets[0], onsets[-1])`, so that region of the final array
is the concatenation of the pieces. -/
def midSegs : List ℕ → List ℚ → List ℚ
  | o1 :: o2 :: os, t1 :: t2 :: tss =>
      linspace t1 t2 (o2 - o1) ++ midSegs (o2 :: os) (t2 :: tss)
  | _, _ => []

/-- data.get_tvec: detect sync onsets at threshold 1, raise (`none`) when the
onset count differs from the reference-timestamp count; with no onset at all
the python crashes indexing `onsets[0]` (also `none`).  Otherwise assemble
the time vector: backward extrapolation `linspace(ts[0]-onsets[0]/sr, ts[0],
onsets[0])` before the first onset, piecewise interpolation between
consecutive onsets, and forward extrapolation over the
`len(x)-onsets[-1]` trailing samples.  The three slice-assignments of the
source tile `[0, len x)` exactly, so the final array is their
concatenation. -/
def get_tvec (x_sync sync_timestamps : List ℚ) (sr : ℚ) : Option (List ℚ) :=
  match binary_onsets x_sync 1 with
  | none => none
  | some (onsets, _offsets) =>
    if onsets.length ≠ sync_timestamps.length then none
    else
      match onsets, sync_timestamps with
      | o0 :: orest, t0 :: trest =>
        let lastOn := (o0 :: orest).getLastD 0
        let lastT := (t0 :: trest).getLastD 0
        let firstSeg := linspace (t0 - (o0 : ℚ) / sr) t0 o0
        let lastLen := x_sync.length - lastOn
        let lastSeg := linspace lastT (lastT + (lastLen : ℚ) / sr) lastLen
        some (firstSeg ++ midSegs (o0 :: orest) (t0 :: trest) ++ lastSeg)
      | _, _ => none

theorem sorted_headD_le_getD (l : List ℕ) (hl : l.Pairwise (· < ·)) (j : ℕ)
    (hj : j < l.length) : l.headD 0 ≤ l.getD j 0 := by
  rcases l with _ | ⟨a, t⟩
  · simp at hj
  rcases j with _ | j
  · simp
  · have hjt : j < t.length := by simpa using hj
    have hmem : t.getD j 0 ∈ t := by
      rw [List.getD_eq_getElem _ _ hjt]
      exact List.getElem_mem hjt
    have := (List.pairwise_cons.mp hl).1 _ hmem
    simpa using le_of_lt this

theorem getLastD_cons_cons {α : Type} (a b : α) (l : List α) (d : α) :
    (a :: b :: l).getLastD d = (b :: l).getLastD d := by
  rw [List.getLastD_cons, List.getLastD_cons, List.getLastD_cons]

theorem getLastD_mem : ∀ (l : List ℕ), l ≠ [] → ∀ d, l.getLastD d ∈ l
  | [], h, _ => absurd rfl h
  | [a], _, d => by simp
  | a :: b :: t, _, d => by
    rw [getLastD_cons_cons]
    exact List.mem_cons_of_mem a (getLastD_mem (b :: t) (by simp) d)

theorem getLastD_eq_getD : ∀ (l : List ℕ), l.Pairwise (· < ·) →
    ∀ d, l.getLastD d = l.getD (l.length - 1) d
  | [], _, d => rfl
  | [a], _, d => rfl
  | a :: b :: t, hp, d => by
    rw [getLastD_cons_cons]
    have := getLastD_eq_getD (b :: t) (List.pairwise_cons.mp hp).2 d
    rw [this]
    have h1 : (a :: b :: t).length - 1 = ((b :: t).length - 1) + 1 := by
      simp
    rw [h1, List.getD_cons_succ]

theorem sorted_headD_le_getLastD (l : List ℕ) (hl : l.Pairwise (· < ·))
    (hne : l ≠ []) : l.headD 0 ≤ l.getLastD 0 := by
  rw [getLastD_eq_getD l hl 0]
  exact sorted_headD_le_getD l hl _
    (by have := List.length_pos.mpr hne; omega)

theorem midSegs_head (o1 o2 : ℕ) (os : List ℕ) (t1 t2 : ℚ) (tss : List ℚ)
    (h12 : o1 < o2) :
    (midSegs (o1 :: o2 :: os) (t1 :: t2 :: tss)).head? = some t1 := by
  rw [midSegs, List.head?_append, linspace_head _ _ _ (by omega)]
  rfl

theorem midSegs_length : ∀ (os : List ℕ) (ts : List ℚ),
    os.length = ts.length → os.Pairwise (· < ·) →
    (midSegs os ts).length = os.getLastD 0 - os.headD 0
  | [], ts, h, _ => by
    have : ts = [] := List.length_eq_zero.mp h.symm
    subst this
    simp [midSegs]
  | [o1], ts, h, _ => by
    rcases ts with _ | ⟨t1, ts'⟩
    · simp at h
    · have : ts' = [] := by simpa using h
      subst this
      simp [midSegs]
  | o1 :: o2 :: os', ts, h, hp => by
    rcases ts with _ | ⟨t1, ts1⟩
    · simp at h
    rcases ts1 with _ | ⟨t2, ts''⟩
    · simp at h
    have hptail : (o2 :: os').Pairwise (· < ·) := (List.pairwise_cons.mp hp).2
    have IH := midSegs_length (o2 :: os') (t2 :: ts'') (by simpa using h) hptail
    rw [midSegs, List.length_append, linspace_length, IH]
    have h12 : o1 < o2 := (List.pairwise_cons.mp hp).1 o2 (by simp)
    have hlast : o2 ≤ (o2 :: os').getLastD 0 :=
      sorted_headD_le_getLastD (o2 :: os') hptail (by simp)
    rw [getLastD_cons_cons]
    simp only [List.headD_cons] at *
    omega

theorem midSegs_chain : ∀ (os : List ℕ) (ts : List ℚ) (tl : List ℚ),
    os.length = ts.length → os.Pairwise (· < ·) → ts.Chain' (· ≤ ·) →
    tl.Chain' (· ≤ ·) → (∀ y ∈ tl.head?, ts.getLastD 0 ≤ y) →
    (midSegs os ts ++ tl).Chain' (· ≤ ·)
  | [], ts, tl, h, _, _, htl, _ => by
    have : ts = [] := List.length_eq_zero.mp h.symm
    subst this
    simpa [midSegs] using htl
  | [o1], ts, tl, h, _, _, htl, _ => by
    rcases ts with _ | ⟨t1, ts'⟩
    · simp at h
    have : ts' = [] := by simpa using h
    subst this
    simpa [midSegs] using htl
  | o1 :: o2 :: os', ts, tl, h, hp, hts, htl, hbound => by
    rcases ts with _ | ⟨t1, ts1⟩
    · simp at h
    rcases ts1 with _ | ⟨t2, ts''⟩
    · simp at h
    have hptail : (o2 :: os').Pairwise (· < ·) := (List.pairwise_cons.mp hp).2
    have h12 : o1 < o2 := (List.pairwise_cons.mp hp).1 o2 (by simp)
    have ht12 : t1 ≤ t2 := (List.chain'_cons.mp hts).1
    have htsTail : (t2 :: ts'').Chain' (· ≤ ·) := (List.chain'_cons.mp hts).2
    have hboundTail : ∀ y ∈ tl.head?, (t2 :: ts'').getLastD 0 ≤ y := by
      intro y hy
      have := hbound y hy
      rwa [getLastD_cons_cons] at this
    have IH := midSegs_chain (o2 :: os') (t2 :: ts'') tl (by simpa using h)
      hptail htsTail htl hboundTail
    rw [midSegs, List.append_assoc]
    refine (linspace_chain t1 t2 (o2 - o1) ht12).append IH ?_
    intro v hv y hy
    have hvle : v ≤ t2 := linspace_getLast_le t1 t2 (o2 - o1) ht12 v hv
    rcases os' with _ | ⟨o3, os''⟩
    · -- single remaining onset: the middle is empty, y is the head of tl
      have : ts'' = [] := by simpa using h
      subst this
      simp only [midSegs, List.nil_append] at hy
      have := hboundTail y hy
      simp only [List.getLastD_cons, List.getLastD_nil] at this
      linarith
    · -- at least two remaining onsets: y is the head t2 of the next segment
      rcases ts'' with _ | ⟨t3, ts'''⟩
      · simp at h
      have h23 : o2 < o3 := (List.pairwise_cons.mp hptail).1 o3 (by simp)
      rw [List.head?_append, midSegs_head o2 o3 os'' t2 t3 ts''' h23] at hy
      simp only [Option.or_some, Option.mem_def, Option.some.injEq] at hy
      subst hy
      exact hvle

theorem midSegs_getD : ∀ (os : List ℕ) (ts : List ℚ) (tl : List ℚ),
    os.length = ts.length → os.Pairwise (· < ·) →
    tl.head? = some (ts.getLastD 0) →
    ∀ ii, ii < os.length →
      (midSegs os ts ++ tl).getD (os.getD ii 0 - os.headD 0) 0 = ts.getD ii 0
  | [], _, _, _, _, _, ii, hii => by simp at hii
  | [o1], ts, tl, h, _, htl, ii, hii => by
    rcases ts with _ | ⟨t1, ts'⟩
    · simp at h
    have : ts' = [] := by simpa using h
    subst this
    have hii0 : ii = 0 := by simpa using hii
    subst hii0
    rcases tl with _ | ⟨y, tl'⟩
    · simp at htl
    simp only [List.head?_cons, Option.some.injEq, List.getLastD_cons,
      List.getLastD_nil] at htl
    simp [midSegs, htl]
  | o1 :: o2 :: os', ts, tl, h, hp, htl, ii, hii => by
    rcases ts with _ | ⟨t1, ts1⟩
    · simp at h
    rcases ts1 with _ | ⟨t2, ts''⟩
    · simp at h
    have hptail : (o2 :: os').Pairwise (· < ·) := (List.pairwise_cons.mp hp).2
    have h12 : o1 < o2 := (List.pairwise_cons.mp hp).1 o2 (by simp)
    have htlTail : tl.head? = some ((t2 :: ts'').getLastD 0) := by
      rw [htl, getLastD_cons_cons]
    rw [midSegs, List.append_assoc]
    rcases ii with _ | j
    · -- first onset of the pair: offset 0 lands on the head of this segment
      simp only [List.getD_cons_zero, List.headD_cons, Nat.sub_self]
      rw [List.getD_append _ _ _ _ (by rw [linspace_length]; omega)]
      simpa using linspace_getD_zero t1 t2 (o2 - o1) (by omega)
    · -- later onset: skip this segment and recurse
      have hj : j < (o2 :: os').length := by simpa using hii
      have IH := midSegs_getD (o2 :: os') (t2 :: ts'') tl (by simpa using h)
        hptail htlTail j hj
      have hm : o2 ≤ (o2 :: os').getD j 0 :=
        sorted_headD_le_getD (o2 :: os') hptail j hj
      simp only [List.getD_cons_succ, List.headD_cons]
      rw [List.getD_append_right _ _ _ _
        (by rw [linspace_length]; omega)]
      rw [linspace_length]
      simp only [List.headD_cons] at IH
      have harith : (o2 :: os').getD j 0 - o1 - (o2 - o1)
          = (o2 :: os').getD j 0 - o2 := by omega
      rw [harith]
      exact IH

theorem binary_onsets_some_eq (x : List ℚ) (th : ℚ) (ons offs : List ℕ)
    (h : binary_onsets x th = some (ons, offs)) :
    ons = (binary_onsets_raw x th).1 ∧ offs = (binary_onsets_raw x th).2 := by
  rcases x with _ | ⟨x0, xr⟩
  · simp [binary_onsets] at h
  simp only [binary_onsets, List.isEmpty_cons, Bool.false_eq_true, if_false] at h
  split at h
  · have hinj := Option.some.inj h
    exact ⟨(congrArg Prod.fst hinj).symm, (congrArg Prod.snd hinj).symm⟩
  · exact absurd h (by simp)

theorem binary_onsets_raw_fst_facts (x : List ℚ) (th : ℚ) :
    (binary_onsets_raw x th).1.Pairwise (· < ·) ∧
      ∀ o ∈ (binary_onsets_raw x th).1, o + 1 < x.length := by
  have hsorted : (rises (x.map (fun v => decide (th < v)))).Pairwise (· < ·) :=
    (List.pairwise_lt_range _).filter _
  have hmem : ∀ o ∈ rises (x.map (fun v => decide (th < v))),
      o + 1 < x.length := by
    intro o ho
    have h1 := (List.mem_filter.mp ho).1
    have h2 := List.mem_range.mp h1
    simp only [List.length_map] at h2
    omega
  simp only [binary_onsets_raw]
  constructor
  · split
    · exact hsorted.sublist (List.dropLast_sublist _)
    · exact hsorted
  · intro o ho
    split at ho
    · exact hmem o (List.dropLast_subset _ ho)
    · exact hmem o ho

/-- Claim C3: whenever get_tvec returns a time vector (so the detected onset
count equals the reference-timestamp count and at least one onset exists),
given a positive sample rate and non-decreasing reference timestamps, the
vector has exactly the length of the input signal, is non-decreasing, and at
every detected onset sample index its value equals the corresponding
reference timestamp. -/
theorem get_tvec_props (x ts : List ℚ) (sr : ℚ) (tvec : List ℚ)
    (hsr : 0 < sr) (hts : ts.Chain' (· ≤ ·))
    (h : get_tvec x ts sr = some tvec) :
    tvec.length = x.length ∧ tvec.Chain' (· ≤ ·) ∧
      ∀ ons offs, binary_onsets x 1 = some (ons, offs) →
        ∀ ii, ii < ons.length →
          tvec.getD (ons.getD ii 0) 0 = ts.getD ii 0 := by
  cases hbo : binary_onsets x 1 with
  | none =>
    unfold get_tvec at h
    rw [hbo] at h
    simp at h
  | some p =>
    rcases p with ⟨onsets, offsets⟩
    unfold get_tvec at h
    rw [hbo] at h
    dsimp only at h
    by_cases hlen : onsets.length = ts.length
    case neg =>
      rw [if_pos hlen] at h
      exact absurd h (by simp)
    rw [if_neg (not_not_intro hlen)] at h
    rcases onsets with _ | ⟨o0, orest⟩
    · rcases ts with _ | ⟨t0, trest⟩ <;> simp at h
    rcases ts with _ | ⟨t0, trest⟩
    · simp at hlen
    dsimp only at h
    simp only [Option.some.injEq] at h
    subst h
    -- facts about the detected onsets
    obtain ⟨honsEq, -⟩ := binary_onsets_some_eq x 1 _ _ hbo
    obtain ⟨hsorted', hmem'⟩ := binary_onsets_raw_fst_facts x 1
    rw [← honsEq] at hsorted' hmem'
    have hlen' : (o0 :: orest).length = (t0 :: trest).length := hlen
    have hlastMem : (o0 :: orest).getLastD 0 ∈ o0 :: orest :=
      getLastD_mem _ (by simp) 0
    have hlastBnd : (o0 :: orest).getLastD 0 + 1 < x.length := hmem' _ hlastMem
    have hheadLe : o0 ≤ (o0 :: orest).getLastD 0 := by
      have := sorted_headD_le_getLastD _ hsorted' (by simp :
        (o0 :: orest) ≠ [])
      simpa using this
    have hfs_le : t0 - (o0 : ℚ) / sr ≤ t0 := by
      have h0 : (0 : ℚ) ≤ (o0 : ℚ) / sr :=
        div_nonneg (by positivity) (le_of_lt hsr)
      linarith
    have hlastT_le : (t0 :: trest).getLastD 0 ≤ (t0 :: trest).getLastD 0
        + ((x.length - (o0 :: orest).getLastD 0 : ℕ) : ℚ) / sr := by
      have h0 : (0 : ℚ) ≤ ((x.length - (o0 :: orest).getLastD 0 : ℕ) : ℚ) / sr :=
        div_nonneg (by positivity) (le_of_lt hsr)
      linarith
    have hlastHead : (linspace ((t0 :: trest).getLastD 0)
        ((t0 :: trest).getLastD 0
          + ((x.length - (o0 :: orest).getLastD 0 : ℕ) : ℚ) / sr)
        (x.length - (o0 :: orest).getLastD 0)).head?
        = some ((t0 :: trest).getLastD 0) :=
      linspace_head _ _ _ (by omega)
    refine ⟨?_, ?_, ?_⟩
    · -- length
      rw [List.length_append, List.length_append, linspace_length,
        linspace_length, midSegs_length _ _ hlen' hsorted']
      simp only [List.headD_cons]
      omega
    · -- non-decreasing
      have hchain1 := linspace_chain _ _ o0 hfs_le
      have hchainLast := linspace_chain _ _
        (x.length - (o0 :: orest).getLastD 0) hlastT_le
      have hbound : ∀ y ∈ (linspace ((t0 :: trest).getLastD 0)
          ((t0 :: trest).getLastD 0
            + ((x.length - (o0 :: orest).getLastD 0 : ℕ) : ℚ) / sr)
          (x.length - (o0 :: orest).getLastD 0)).head?,
          (t0 :: trest).getLastD 0 ≤ y := by
        intro y hy
        rw [hlastHead] at hy
        simp only [Option.mem_def, Option.some.injEq] at hy
        subst hy
        exact le_refl _
      have hchainRest := midSegs_chain (o0 :: orest) (t0 :: trest) _
        hlen' hsorted' hts hchainLast hbound
      rw [List.append_assoc]
      refine hchain1.append hchainRest ?_
      intro v hv y hy
      have hvle : v ≤ t0 := linspace_getLast_le _ _ _ hfs_le v hv
      rcases orest with _ | ⟨o1, orest'⟩
      · have htrest : trest = [] := by simpa using hlen'
        subst htrest
        rw [show midSegs [o0] [t0] = [] from rfl, List.nil_append] at hy
        rw [hlastHead] at hy
        simp only [Option.mem_def, Option.some.injEq] at hy
        subst hy
        simpa [List.getLastD_cons, List.getLastD_nil] using hvle
      · rcases trest with _ | ⟨t1, trest'⟩
        · simp at hlen'
        rw [List.head?_append, midSegs_head o0 o1 orest' t0 t1 trest'
          ((List.pairwise_cons.mp hsorted').1 o1 (by simp))] at hy
        simp only [Option.or_some, Option.mem_def, Option.some.injEq] at hy
        subst hy
        exact hvle
    · -- values at onsets
      intro ons offs hbo2 ii hii
      have hinj := Option.some.inj hbo2
      have honsEq2 : ons = o0 :: orest := (congrArg Prod.fst hinj).symm
      subst honsEq2
      have hpos_ge : o0 ≤ (o0 :: orest).getD ii 0 := by
        have := sorted_headD_le_getD _ hsorted' ii hii
        simpa using this
      rw [List.append_assoc,
        List.getD_append_right _ _ _ _ (by rw [linspace_length]; exact hpos_ge),
        linspace_length]
      have hmid := midSegs_getD (o0 :: orest) (t0 :: trest) _ hlen' hsorted'
        hlastHead ii hii
      simpa using hmid

theorem linspace_zero (a b : ℚ) : linspace a b 0 = [] := rfl

theorem linspace_one (a b : ℚ) : linspace a b 1 = [a] := rfl

theorem linspace_two (a b : ℚ) : linspace a b 2 = [a, b] := by
  show (List.range 2).map
    (fun (j : ℕ) => a + (j : ℚ) * (b - a) / ((0 : ℚ) + 1)) = [a, b]
  rw [show List.range 2 = [0, 1] from rfl]
  simp only [List.map_cons, List.map_nil, Nat.cast_zero, Nat.cast_one]
  refine congrArg₂ _ (by ring) (congrArg₂ _ (by ring) rfl)

theorem linspace_three (a b : ℚ) : linspace a b 3 = [a, a + (b - a) / 2, b] := by
  show (List.range 3).map
    (fun (j : ℕ) => a + (j : ℚ) * (b - a) / ((1 : ℚ) + 1)) = _
  rw [show List.range 3 = [0, 1, 2] from rfl]
  simp only [List.map_cons, List.map_nil, Nat.cast_zero, Nat.cast_one,
    Nat.cast_ofNat]
  refine congrArg₂ _ (by ring) (congrArg₂ _ (by ring)
    (congrArg₂ _ (by ring) rfl))

/-- Witness for C3: signal `[0,2,0,2,0]` has onsets `[0,2]`; with reference
timestamps `[10,11]` and sample rate 1 the produced vector is
`[10, 11, 11, 25/2, 14]`. -/
theorem get_tvec_props_witness :
    ([10, 11, 11, 25/2, 14] : List ℚ).length
        = ([0, 2, 0, 2, 0] : List ℚ).length ∧
      ([10, 11, 11, 25/2, 14] : List ℚ).Chain' (· ≤ ·) ∧
      ∀ ons offs, binary_onsets ([0, 2, 0, 2, 0] : List ℚ) 1
          = some (ons, offs) →
        ∀ ii, ii < ons.length →
          ([10, 11, 11, 25/2, 14] : List ℚ).getD (ons.getD ii 0) 0
            = ([10, 11] : List ℚ).getD ii 0 := by
  refine get_tvec_props [0, 2, 0, 2, 0] [10, 11] 1 [10, 11, 11, 25/2, 14]
    (by norm_num) (by norm_num [List.chain'_cons, List.chain'_singleton]) ?_
  have hbo : binary_onsets ([0, 2, 0, 2, 0] : List ℚ) 1
      = some ([0, 2], [1, 3]) := by decide
  unfold get_tvec
  rw [hbo]
  dsimp only
  rw [if_neg (by norm_num)]
  norm_num [midSegs, linspace_zero, linspace_two, linspace_three,
    List.getLastD_cons, List.getLastD_nil]

/-- data.filter_by_metric: collect `clu_list`, the cluster ids whose metrics
row satisfies the query expression, then restrict the spikes and metrics
tables to rows whose cluster id is in `clu_list` (`isin` semantics). -/
def filter_by_metric (spikes : List SpikeRow) (metrics : List MetricRow)
    (expr : MetricRow → Bool) : List SpikeRow × List MetricRow :=
  let clu_list := (metrics.filter expr).map (·.cluster_id)
  (spikes.filter (fun s => decide (s.cluster_id ∈ clu_list)),
   metrics.filter (fun m => decide (m.cluster_id ∈ clu_list)))

/-- data.filter_by_spikerate: keep the spikes of clusters with strictly more
than `thresh` spikes (`n_spikes[n_spikes > thresh]`).  The source also
computes `metrics.query('cluster_id in @mask')` but returns only `spikes2`,
so the metrics restriction is discarded; the embedding returns what the
function returns. -/
def filter_by_spikerate (spikes : List SpikeRow) (metrics : List MetricRow)
    (thresh : ℕ) : List SpikeRow :=
  spikes.filter (fun s =>
    decide (thresh < spikes.countP (fun r => r.cluster_id == s.cluster_id)))

/-- data.filter_default_metrics: the default composite quality filter:
spike-count threshold 100, then `isi_viol < 2`, `amplitude_cutoff < 0.1`,
`presence_ratio > 0.9`, threading the pair through each step. -/
def filter_default_metrics (spikes : List SpikeRow) (metrics : List MetricRow) :
    List SpikeRow × List MetricRow :=
  let spikes1 := filter_by_spikerate spikes metrics 100
  let p1 := filter_by_metric spikes1 metrics (fun m => decide (m.isi_viol < 2))
  let p2 := filter_by_metric p1.1 p1.2
    (fun m => decide (m.amplitude_cutoff < 1/10))
  filter_by_metric p2.1 p2.2 (fun m => decide ( MetricRow.presence_ratio m > 9/10))

set_option maxRecDepth 4000 in
/-- Claim C6 failing input: a cluster with EXACTLY 100 spikes that passes
every metric predicate.  The claim (and filter_by_spikerate's own docstring,
"remove units that have less than thresh spikes") keeps it in both tables;
the code drops it from the spikes table (strict `n_spikes > 100`) while the
metrics table, never restricted by the spike-count step, retains it — the
two returned tables disagree about the surviving cluster set. -/
theorem filter_default_metrics_bug :
    (filter_default_metrics (List.replicate 100 ⟨0, 0, 0, 0⟩)
        [⟨0, 0, 0, 1, 0⟩]).1 = []
      ∧ (filter_default_metrics (List.replicate 100 ⟨0, 0, 0, 0⟩)
        [⟨0, 0, 0, 1, 0⟩]).2 = [⟨0, 0, 0, 1, 0⟩] := by
  have h1 : filter_by_spikerate (List.replicate 100 (⟨0, 0, 0, 0⟩ : SpikeRow))
      [⟨0, 0, 0, 1, 0⟩] 100 = [] := by decide
  simp only [filter_default_metrics]
  rw [h1]
  simp only [filter_by_metric, List.filter_nil]
  norm_num

theorem countP_filter_cluster (S : List SpikeRow) (f : ℕ → Bool) (c : ℕ)
    (hc : f c = true) :
    (S.filter (fun r => f r.cluster_id)).countP (fun r => r.cluster_id == c)
      = S.countP (fun r => r.cluster_id == c) := by
  rw [List.countP_filter]
  apply List.countP_congr
  intro r _
  constructor
  · intro h
    exact ((Bool.and_eq_true _ _) ▸ h).1
  · intro h
    have hrc : r.cluster_id = c := by simpa using h
    rw [Bool.and_eq_true]
    exact ⟨h, by rw [hrc]; exact hc⟩

theorem mem_filter_by_spikerate {S : List SpikeRow} {M : List MetricRow}
    {thresh : ℕ} {s : SpikeRow} :
    s ∈ filter_by_spikerate S M thresh ↔
      s ∈ S ∧ thresh < S.countP (fun r => r.cluster_id == s.cluster_id) := by
  simp [filter_by_spikerate]

theorem mem_filter_by_metric_fst {S : List SpikeRow} {M : List MetricRow}
    {P : MetricRow → Bool} {s : SpikeRow} :
    s ∈ (filter_by_metric S M P).1 ↔
      s ∈ S ∧ ∃ m ∈ M, P m = true ∧ m.cluster_id = s.cluster_id := by
  simp only [filter_by_metric, List.mem_filter, decide_eq_true_eq,
    List.mem_map, List.mem_filter]
  constructor
  · rintro ⟨hs, m, ⟨hmM, hPm⟩, hcid⟩
    exact ⟨hs, m, hmM, hPm, hcid⟩
  · rintro ⟨hs, m, hmM, hPm, hcid⟩
    exact ⟨hs, m, ⟨hmM, hPm⟩, hcid⟩

theorem mem_filter_by_metric_snd {S : List SpikeRow} {M : List MetricRow}
    {P : MetricRow → Bool} {m' : MetricRow} :
    m' ∈ (filter_by_metric S M P).2 ↔
      m' ∈ M ∧ ∃ m ∈ M, P m = true ∧ m.cluster_id = m'.cluster_id := by
  simp only [filter_by_metric, List.mem_filter, decide_eq_true_eq,
    List.mem_map, List.mem_filter]
  constructor
  · rintro ⟨hs, m, ⟨hmM, hPm⟩, hcid⟩
    exact ⟨hs, m, hmM, hPm, hcid⟩
  · rintro ⟨hs, m, hmM, hPm, hcid⟩
    exact ⟨hs, m, ⟨hmM, hPm⟩, hcid⟩

theorem countP_filter_by_spikerate (S : List SpikeRow) (M : List MetricRow)
    (thresh : ℕ) (c : ℕ)
    (hc : thresh < S.countP (fun r => r.cluster_id == c)) :
    (filter_by_spikerate S M thresh).countP (fun r => r.cluster_id == c)
      = S.countP (fun r => r.cluster_id == c) :=
  countP_filter_cluster S
    (fun c' => decide (thresh < S.countP (fun r => r.cluster_id == c'))) c
    (by simpa using hc)

theorem countP_filter_by_metric (S : List SpikeRow) (M : List MetricRow)
    (P : MetricRow → Bool) (c : ℕ)
    (hc : ∃ m ∈ M, P m = true ∧ m.cluster_id = c) :
    ((filter_by_metric S M P).1).countP (fun r => r.cluster_id == c)
      = S.countP (fun r => r.cluster_id == c) :=
  countP_filter_cluster S
    (fun c' => decide (c' ∈ (M.filter P).map (fun m : MetricRow => m.cluster_id))) c
    (by
      rcases hc with ⟨m, hm, hPm, hcid⟩
      simp only [decide_eq_true_eq, List.mem_map, List.mem_filter]
      exact ⟨m, ⟨hm, hPm⟩, hcid⟩)

theorem filter_by_spikerate_id (S : List SpikeRow) (M : List MetricRow)
    (thresh : ℕ)
    (h : ∀ s ∈ S, thresh < S.countP (fun r => r.cluster_id == s.cluster_id)) :
    filter_by_spikerate S M thresh = S := by
  unfold filter_by_spikerate
  rw [List.filter_eq_self]
  intro s hs
  simpa using h s hs

theorem filter_by_metric_id (S : List SpikeRow) (M : List MetricRow)
    (P : MetricRow → Bool)
    (hS : ∀ s ∈ S, ∃ m ∈ M, P m = true ∧ m.cluster_id = s.cluster_id)
    (hM : ∀ m' ∈ M, ∃ m ∈ M, P m = true ∧ m.cluster_id = m'.cluster_id) :
    filter_by_metric S M P = (S, M) := by
  unfold filter_by_metric
  refine congrArg₂ Prod.mk ?_ ?_
  · rw [List.filter_eq_self]
    intro s hs
    rcases hS s hs with ⟨m, hm, hPm, hcid⟩
    simp only [decide_eq_true_eq, List.mem_map, List.mem_filter]
    exact ⟨m, ⟨hm, hPm⟩, hcid⟩
  · rw [List.filter_eq_self]
    intro m' hm'
    rcases hM m' hm' with ⟨m, hm, hPm, hcid⟩
    simp only [decide_eq_true_eq, List.mem_map, List.mem_filter]
    exact ⟨m, ⟨hm, hPm⟩, hcid⟩

/-- Claim C7: the default composite quality filter is idempotent — applying
filter_default_metrics to its own output returns the output unchanged.  The
spike counts of surviving clusters are unchanged by filtering (whole clusters
survive), and each stage's cluster list is reproduced from the filtered
metrics table. -/
theorem filter_default_metrics_idem (S : List SpikeRow) (M : List MetricRow) :
    filter_default_metrics (filter_default_metrics S M).1
      (filter_default_metrics S M).2 = filter_default_metrics S M := by
  set P1 : MetricRow → Bool := fun m => decide (m.isi_viol < 2) with hP1
  set P2 : MetricRow → Bool := fun m => decide (m.amplitude_cutoff < 1/10)
    with hP2
  set P3 : MetricRow → Bool := fun m => decide ( MetricRow.presence_ratio m > 9/10)
    with hP3
  set S0 := filter_by_spikerate S M 100 with hS0
  set Q1 := filter_by_metric S0 M P1 with hQ1
  set Q2 := filter_by_metric Q1.1 Q1.2 P2 with hQ2
  set Q3 := filter_by_metric Q2.1 Q2.2 P3 with hQ3
  have hfd : filter_default_metrics S M = Q3 := rfl
  -- membership characterization of the output spike rows
  have hmemS3 : ∀ s ∈ Q3.1,
      (s ∈ S ∧ 100 < S.countP (fun r => r.cluster_id == s.cluster_id))
      ∧ (∃ m ∈ M, P1 m = true ∧ m.cluster_id = s.cluster_id)
      ∧ (∃ m ∈ Q1.2, P2 m = true ∧ m.cluster_id = s.cluster_id)
      ∧ (∃ m ∈ Q2.2, P3 m = true ∧ m.cluster_id = s.cluster_id) := by
    intro s hs
    rw [hQ3, mem_filter_by_metric_fst] at hs
    obtain ⟨hs2, hw3⟩ := hs
    rw [hQ2, mem_filter_by_metric_fst] at hs2
    obtain ⟨hs1, hw2⟩ := hs2
    rw [hQ1, mem_filter_by_metric_fst] at hs1
    obtain ⟨hs0, hw1⟩ := hs1
    rw [hS0, mem_filter_by_spikerate] at hs0
    exact ⟨hs0, hw1, hw2, hw3⟩
  -- membership characterization of the output metrics rows
  have hmemM3 : ∀ m' ∈ Q3.2, m' ∈ M
      ∧ (∃ m ∈ M, P1 m = true ∧ m.cluster_id = m'.cluster_id)
      ∧ (∃ m ∈ Q1.2, P2 m = true ∧ m.cluster_id = m'.cluster_id)
      ∧ (∃ m ∈ Q2.2, P3 m = true ∧ m.cluster_id = m'.cluster_id) := by
    intro m' hm'
    rw [hQ3, mem_filter_by_metric_snd] at hm'
    obtain ⟨hm2, hw3⟩ := hm'
    rw [hQ2, mem_filter_by_metric_snd] at hm2
    obtain ⟨hm1, hw2⟩ := hm2
    rw [hQ1, mem_filter_by_metric_snd] at hm1
    obtain ⟨hmM, hw1⟩ := hm1
    exact ⟨hmM, hw1, hw2, hw3⟩
  -- promotion of per-stage witnesses into the final metrics table
  have hintoM1 : ∀ m ∈ M,
      (∃ w ∈ M, P1 w = true ∧ w.cluster_id = m.cluster_id) → m ∈ Q1.2 := by
    intro m hm hw
    rw [hQ1, mem_filter_by_metric_snd]
    exact ⟨hm, hw⟩
  have hintoM2 : ∀ m ∈ Q1.2,
      (∃ w ∈ Q1.2, P2 w = true ∧ w.cluster_id = m.cluster_id) → m ∈ Q2.2 := by
    intro m hm hw
    rw [hQ2, mem_filter_by_metric_snd]
    exact ⟨hm, hw⟩
  have hintoM3 : ∀ m ∈ Q2.2,
      (∃ w ∈ Q2.2, P3 w = true ∧ w.cluster_id = m.cluster_id) → m ∈ Q3.2 := by
    intro m hm hw
    rw [hQ3, mem_filter_by_metric_snd]
    exact ⟨hm, hw⟩
  have hpromote : ∀ (c : ℕ),
      (∃ m ∈ M, P1 m = true ∧ m.cluster_id = c) →
      (∃ m ∈ Q1.2, P2 m = true ∧ m.cluster_id = c) →
      (∃ m ∈ Q2.2, P3 m = true ∧ m.cluster_id = c) →
      (∃ m ∈ Q3.2, P1 m = true ∧ m.cluster_id = c)
      ∧ (∃ m ∈ Q3.2, P2 m = true ∧ m.cluster_id = c)
      ∧ (∃ m ∈ Q3.2, P3 m = true ∧ m.cluster_id = c) := by
    rintro c ⟨w1, hw1M, hw1P, hw1c⟩ ⟨w2, hw2M1, hw2P, hw2c⟩
      ⟨w3, hw3M2, hw3P, hw3c⟩
    have hw2M1' := hw2M1
    rw [hQ2, mem_filter_by_metric_snd] at hw3M2
    have hw3M1 : w3 ∈ Q1.2 := hw3M2.1
    have hw3M2' : w3 ∈ Q2.2 := by
      rw [hQ2, mem_filter_by_metric_snd]
      exact hw3M2
    have hw1M1 : w1 ∈ Q1.2 := hintoM1 w1 hw1M ⟨w1, hw1M, hw1P, rfl⟩
    have hw1M2 : w1 ∈ Q2.2 :=
      hintoM2 w1 hw1M1 ⟨w2, hw2M1, hw2P, by rw [hw2c, hw1c]⟩
    have hw1M3 : w1 ∈ Q3.2 :=
      hintoM3 w1 hw1M2 ⟨w3, hw3M2', hw3P, by rw [hw3c, hw1c]⟩
    have hw2M2 : w2 ∈ Q2.2 := hintoM2 w2 hw2M1 ⟨w2, hw2M1, hw2P, rfl⟩
    have hw2M3 : w2 ∈ Q3.2 :=
      hintoM3 w2 hw2M2 ⟨w3, hw3M2', hw3P, by rw [hw3c, hw2c]⟩
    have hw3M3 : w3 ∈ Q3.2 := hintoM3 w3 hw3M2' ⟨w3, hw3M2', hw3P, rfl⟩
    exact ⟨⟨w1, hw1M3, hw1P, hw1c⟩, ⟨w2, hw2M3, hw2P, hw2c⟩,
      ⟨w3, hw3M3, hw3P, hw3c⟩⟩
  -- the spike count of each surviving cluster is unchanged by the filtering
  have hcount : ∀ s ∈ Q3.1,
      100 < Q3.1.countP (fun r => r.cluster_id == s.cluster_id) := by
    intro s hs
    obtain ⟨⟨hsS, hsc⟩, hw1, hw2, hw3⟩ := hmemS3 s hs
    have e3 : Q3.1.countP (fun r => r.cluster_id == s.cluster_id)
        = Q2.1.countP (fun r => r.cluster_id == s.cluster_id) := by
      rw [hQ3]
      exact countP_filter_by_metric Q2.1 Q2.2 P3 s.cluster_id hw3
    have e2 : Q2.1.countP (fun r => r.cluster_id == s.cluster_id)
        = Q1.1.countP (fun r => r.cluster_id == s.cluster_id) := by
      rw [hQ2]
      exact countP_filter_by_metric Q1.1 Q1.2 P2 s.cluster_id hw2
    have e1 : Q1.1.countP (fun r => r.cluster_id == s.cluster_id)
        = S0.countP (fun r => r.cluster_id == s.cluster_id) := by
      rw [hQ1]
      exact countP_filter_by_metric S0 M P1 s.cluster_id hw1
    have e0 : S0.countP (fun r => r.cluster_id == s.cluster_id)
        = S.countP (fun r => r.cluster_id == s.cluster_id) := by
      rw [hS0]
      exact countP_filter_by_spikerate S M 100 s.cluster_id hsc
    rw [e3, e2, e1, e0]
    exact hsc
  -- each stage of the second run is the identity
  have hT0 : filter_by_spikerate Q3.1 Q3.2 100 = Q3.1 :=
    filter_by_spikerate_id _ _ _ hcount
  have hFM1 : filter_by_metric Q3.1 Q3.2 P1 = (Q3.1, Q3.2) :=
    filter_by_metric_id _ _ _
      (fun s hs => by
        obtain ⟨-, hw1, hw2, hw3⟩ := hmemS3 s hs
        exact (hpromote s.cluster_id hw1 hw2 hw3).1)
      (fun m' hm' => by
        obtain ⟨-, hw1, hw2, hw3⟩ := hmemM3 m' hm'
        exact (hpromote m'.cluster_id hw1 hw2 hw3).1)
  have hFM2 : filter_by_metric Q3.1 Q3.2 P2 = (Q3.1, Q3.2) :=
    filter_by_metric_id _ _ _
      (fun s hs => by
        obtain ⟨-, hw1, hw2, hw3⟩ := hmemS3 s hs
        exact (hpromote s.cluster_id hw1 hw2 hw3).2.1)
      (fun m' hm' => by
        obtain ⟨-, hw1, hw2, hw3⟩ := hmemM3 m' hm'
        exact (hpromote m'.cluster_id hw1 hw2 hw3).2.1)
  have hFM3 : filter_by_metric Q3.1 Q3.2 P3 = (Q3.1, Q3.2) :=
    filter_by_metric_id _ _ _
      (fun s hs => by
        obtain ⟨-, hw1, hw2, hw3⟩ := hmemS3 s hs
        exact (hpromote s.cluster_id hw1 hw2 hw3).2.2)
      (fun m' hm' => by
        obtain ⟨-, hw1, hw2, hw3⟩ := hmemM3 m' hm'
        exact (hpromote m'.cluster_id hw1 hw2 hw3).2.2)
  rw [hfd]
  show filter_by_metric
      (filter_by_metric
        (filter_by_metric (filter_by_spikerate Q3.1 Q3.2 100) Q3.2 P1).1
        (filter_by_metric (filter_by_spikerate Q3.1 Q3.2 100) Q3.2 P1).2 P2).1
      (filter_by_metric
        (filter_by_metric (filter_by_spikerate Q3.1 Q3.2 100) Q3.2 P1).1
        (filter_by_metric (filter_by_spikerate Q3.1 Q3.2 100) Q3.2 P1).2 P2).2
      P3 = Q3
  rw [hT0, hFM1]
  dsimp only
  rw [hFM2]
  dsimp only
  rw [hFM3]

/-- The ascending list of distinct cluster ids of a spikes table, the order
in which `groupby('cluster_id')` enumerates its group keys. -/
def clusterKeys (spikes : List SpikeRow) : List ℕ :=
  ((spikes.map (fun s => s.cluster_id)).dedup).insertionSort (· ≤ ·)

/-- Mean depth of a cluster across its spike rows
(`groupby('cluster_id').mean()` of the depth column). -/
def meanDepth (spikes : List SpikeRow) (c : ℕ) : ℚ :=
  ((spikes.filter (fun s => s.cluster_id == c)).map (fun s => s.depth)).sum
    / ((spikes.filter (fun s => s.cluster_id == c)).length : ℚ)

/-- data.resort_by_depth, step by step:
`dd = spikes[['cluster_id','depth']].groupby('cluster_id').mean()` — one row
per cluster, keyed by ascending cluster id;
`dd = dd.reset_index()` — rows gain the positional index 0..M-1 (each
cluster's rank in CLUSTER-ID order);
`dd = dd.sort_values('depth')` — rows reordered by mean depth, KEEPING the
old positional index labels (sort_values is embedded as a stable sort; the
claims proved here do not depend on tie order);
`dd = dd.reset_index().rename({'index': 'cell_id'}, axis=1)` — without
`drop=True`, `reset_index` turns the OLD positional labels (cluster-id
ranks, not depth ranks) into the `cell_id` column;
finally `spikes.merge(dd, on='cluster_id')` attaches that cell_id to every
spike row, in spikes order. -/
def resort_by_depth (spikes : List SpikeRow) : List SpikeRow :=
  let dd0 := (clusterKeys spikes).map (fun c => (c, meanDepth spikes c))
  let dd1 := dd0.enum
  let dd2 := dd1.insertionSort (fun a b => a.2.2 ≤ b.2.2)
  let dd3 := dd2.map (fun p => (p.1, p.2.1))
  spikes.flatMap (fun s =>
    (dd3.filter (fun p => p.2 == s.cluster_id)).map
      (fun p => { s with cell_id := p.1 }))

/-- Claim C1 evaluated at a failing input: a spikes table of two clusters
(e.g. what remains after a third cluster was removed), cluster 0 at mean
depth 5 and cluster 1 at mean depth 1.  The claim says the cluster with the
smallest mean depth gets cell_id 0; the code gives cluster 0 (the DEEPER
one) cell_id 0, because the second `reset_index()` (without `drop=True`)
captures the pre-sort positional index — cell_id ends up ranking clusters by
cluster_id, not by depth, contradicting the function's own docstring
("changes the cell_id column to be depth ordered"). -/
theorem resort_by_depth_bug :
    resort_by_depth [⟨0, 0, 5, 7⟩, ⟨1, 1, 1, 7⟩]
        = [⟨0, 0, 5, 0⟩, ⟨1, 1, 1, 1⟩]
      ∧ ¬ (∀ s ∈ resort_by_depth [⟨0, 0, 5, 7⟩, ⟨1, 1, 1, 7⟩],
            ∀ s' ∈ resort_by_depth [⟨0, 0, 5, 7⟩, ⟨1, 1, 1, 7⟩],
            s.depth < s'.depth → s.cell_id < s'.cell_id) := by
  have hm0 : meanDepth [⟨0, 0, 5, 7⟩, ⟨1, 1, 1, 7⟩] 0 = 5 := by
    simp [meanDepth]
  have hm1 : meanDepth [⟨0, 0, 5, 7⟩, ⟨1, 1, 1, 7⟩] 1 = 1 := by
    simp [meanDepth]
  have hkeys : clusterKeys [⟨0, 0, 5, 7⟩, ⟨1, 1, 1, 7⟩] = [0, 1] := by decide
  have heval : resort_by_depth [⟨0, 0, 5, 7⟩, ⟨1, 1, 1, 7⟩]
      = [⟨0, 0, 5, 0⟩, ⟨1, 1, 1, 1⟩] := by
    unfold resort_by_depth
    rw [hkeys]
    simp only [List.map_cons, List.map_nil]
    rw [hm0, hm1]
    decide
  refine ⟨heval, ?_⟩
  rw [heval]
  intro hclaim
  have h5 := hclaim ⟨1, 1, 1, 1⟩ (by simp) ⟨0, 0, 5, 0⟩ (by simp)
  simp only at h5
  have := h5 (by norm_num)
  omega

/-- A spikes row after probe concatenation: probe tag and per-cluster uuid
added.  uuid4 draws are modelled as the deterministic fresh tags
`(probe index, row position)` — distinct for every metrics row, which is the
program-level content of "fresh uuid per cluster". -/
structure CSpikeRow where
  ts : ℚ
  cluster_id : ℕ
  depth : ℚ
  probe : ℕ
  uuid : ℕ × ℕ
  cell_id : ℕ
  deriving Repr, DecidableEq

/-- A metrics row after probe concatenation.  Probe labels are modelled as
naturals ordered the way the label strings sort (pandas sorts the `probe`
column lexicographically; for the imec0 < imec1 < ... labels that is the
numeric order). -/
structure CMetricRow where
  cluster_id : ℕ
  depth : ℚ
  probe : ℕ
  uuid : ℕ × ℕ
  cell_id : ℕ
  deriving Repr, DecidableEq

/-- The `['probe','depth']` sort key of `pd.concat(...).sort_values`. -/
def probeDepthLE (a b : CMetricRow) : Prop :=
  a.probe < b.probe ∨ (a.probe = b.probe ∧ a.depth ≤ b.depth)

instance : DecidableRel probeDepthLE := fun a b => by
  unfold probeDepthLE
  infer_instance

/-- The per-probe metrics tagging of concatenate_probes' loop over
`range(n_probes)`: add the probe label column and a fresh uuid per metrics
row. -/
def tagMetrics (metrics_list : List (List MetricRow)) (labels : List ℕ) :
    List (List CMetricRow) :=
  (List.range labels.length).map (fun ii =>
    ((metrics_list.getD ii []).enum).map (fun p =>
      { cluster_id := p.2.cluster_id, depth := p.2.depth,
        probe := labels.getD ii 0, uuid := (ii, p.1), cell_id := 0 }))

/-- The per-probe spikes tagging: probe label plus the uuid of the spike's
cluster, via `spikes_list[ii].merge(metrics_list[ii][['cluster_id','uuid']],
on='cluster_id')`. -/
def tagSpikes (spikes_list : List (List SpikeRow))
    (metrics_list : List (List MetricRow)) (labels : List ℕ) :
    List (List CSpikeRow) :=
  (List.range labels.length).map (fun ii =>
    (spikes_list.getD ii []).flatMap (fun s =>
      (((tagMetrics metrics_list labels).getD ii []).filter
          (fun m => m.cluster_id == s.cluster_id)).map
        (fun m => { ts := s.ts, cluster_id := s.cluster_id, depth := s.depth,
                    probe := labels.getD ii 0, uuid := m.uuid,
                    cell_id := 0 })))

/-- `reset_index(drop=True).reset_index().rename(columns={'index':'cell_id'})`
after the sort: each row's cell_id becomes its position. -/
def attachCellIds (L : List CMetricRow) : List CMetricRow :=
  L.enum.map (fun p => { p.2 with cell_id := p.1 })

/-- data.concatenate_probes: for each probe ii, tag the metrics rows with the
probe label and a fresh uuid, and join each spikes row with its cluster's
uuid; concatenate; sort the metrics by `['probe','depth']` (a stable sort;
pandas uses the stable lexsort for multi-key sorts) and let the new
positional index become cell_id; then re-derive the spikes' cell_id by
joining on uuid and sort by time. -/
def concatenate_probes (spikes_list : List (List SpikeRow))
    (metrics_list : List (List MetricRow)) (labels : List ℕ) :
    List CSpikeRow × List CMetricRow :=
  let metrics := attachCellIds
    ((tagMetrics metrics_list labels).flatten.insertionSort probeDepthLE)
  let spikes := (tagSpikes spikes_list metrics_list labels).flatten.flatMap
    (fun s => (metrics.filter (fun m => m.uuid == s.uuid)).map
      (fun m => { s with cell_id := m.cell_id }))
  (spikes.insertionSort (fun a b => a.ts ≤ b.ts), metrics)

/-- Claim C2 counterexample: two probes with one cluster each, probe 0's
cluster at depth 10 and probe 1's cluster at depth 1.  Sorting by
`['probe','depth']` puts the probe-0 cluster first, so the DEEPER cluster
(depth 10) receives cell_id 0 and the shallower one (depth 1, but on the
later probe) receives cell_id 1 — cell_id is not a single depth ordering
across the union of probes. -/
theorem concatenate_probes_not_global_depth :
    ((concatenate_probes [[⟨0, 0, 10, 0⟩], [⟨1, 0, 1, 0⟩]]
        [[⟨0, 0, 0, 0, 10⟩], [⟨0, 0, 0, 0, 1⟩]] [0, 1]).2).map
        (fun m => (m.probe, m.depth, m.cell_id))
      = [(0, 10, 0), (1, 1, 1)]
    ∧ ¬ (∀ m ∈ (concatenate_probes [[⟨0, 0, 10, 0⟩], [⟨1, 0, 1, 0⟩]]
          [[⟨0, 0, 0, 0, 10⟩], [⟨0, 0, 0, 0, 1⟩]] [0, 1]).2,
        ∀ m' ∈ (concatenate_probes [[⟨0, 0, 10, 0⟩], [⟨1, 0, 1, 0⟩]]
          [[⟨0, 0, 0, 0, 10⟩], [⟨0, 0, 0, 0, 1⟩]] [0, 1]).2,
        m.depth < m'.depth → m.cell_id < m'.cell_id) := by
  constructor
  · decide
  · decide

instance : IsTotal CMetricRow probeDepthLE := by
  constructor
  intro a b
  unfold probeDepthLE
  rcases lt_trichotomy a.probe b.probe with h | h | h
  · exact Or.inl (Or.inl h)
  · rcases le_total a.depth b.depth with hd | hd
    · exact Or.inl (Or.inr ⟨h, hd⟩)
    · exact Or.inr (Or.inr ⟨h.symm, hd⟩)
  · exact Or.inr (Or.inl h)

instance : IsTrans CMetricRow probeDepthLE := by
  constructor
  intro a b c hab hbc
  unfold probeDepthLE at *
  rcases hab with h1 | ⟨h1, h1d⟩ <;> rcases hbc with h2 | ⟨h2, h2d⟩
  · exact Or.inl (h1.trans h2)
  · exact Or.inl (h2 ▸ h1)
  · exact Or.inl (h1 ▸ h2)
  · exact Or.inr ⟨h1.trans h2, h1d.trans h2d⟩

theorem attachCellIds_cellids (L : List CMetricRow) :
    (attachCellIds L).map (fun m => m.cell_id)
      = List.range (attachCellIds L).length := by
  unfold attachCellIds
  rw [List.map_map, List.length_map]
  have hcomp : ((fun m : CMetricRow => m.cell_id) ∘
      (fun p : ℕ × CMetricRow => { p.2 with cell_id := p.1 })) = Prod.fst :=
    rfl
  rw [hcomp, List.enum_map_fst, List.enum_length]

theorem attachCellIds_pairwise (L : List CMetricRow) :
    (attachCellIds (L.insertionSort probeDepthLE)).Pairwise probeDepthLE := by
  unfold attachCellIds
  rw [List.pairwise_map]
  have h1 : List.Pairwise probeDepthLE
      ((L.insertionSort probeDepthLE).enum.map Prod.snd) := by
    rw [List.enum_map_snd]
    exact List.sorted_insertionSort probeDepthLE L
  exact (List.pairwise_map.mp h1).imp (fun h => h)

theorem attachCellIds_map_uuid (L : List CMetricRow) :
    (attachCellIds L).map (fun m => m.uuid) = L.map (fun m => m.uuid) := by
  unfold attachCellIds
  rw [List.map_map]
  have hcomp : ((fun m : CMetricRow => m.uuid) ∘
      (fun p : ℕ × CMetricRow => { p.2 with cell_id := p.1 }))
      = ((fun m : CMetricRow => m.uuid) ∘ Prod.snd) := rfl
  rw [hcomp, ← List.map_map, List.enum_map_snd]

theorem tagMetrics_uuid_nodup (ml : List (List MetricRow)) (labels : List ℕ) :
    (((tagMetrics ml labels).flatten).map (fun m => m.uuid)).Nodup := by
  rw [List.map_flatten, List.nodup_flatten]
  constructor
  · intro l hl
    simp only [tagMetrics, List.map_map, List.mem_map, List.mem_range] at hl
    obtain ⟨ii, hii, rfl⟩ := hl
    simp only [Function.comp_def]
    rw [List.map_map]
    have hcomp : ((fun m : CMetricRow => m.uuid) ∘
        (fun p : ℕ × MetricRow =>
          ({ cluster_id := p.2.cluster_id, depth := p.2.depth,
             probe := labels.getD ii 0, uuid := (ii, p.1),
             cell_id := 0 } : CMetricRow)))
        = (Prod.mk ii ∘ Prod.fst) := rfl
    rw [hcomp, ← List.map_map, List.enum_map_fst]
    exact (List.nodup_range _).map (fun a b h => by simpa using h)
  · rw [tagMetrics, List.map_map, List.pairwise_map]
    refine (List.pairwise_lt_range _).imp ?_
    intro i j hij
    intro a hai haj
    simp only [Function.comp_def, List.map_map, List.mem_map] at hai haj
    obtain ⟨p, hp, rfl⟩ := hai
    obtain ⟨q, hq, hqe⟩ := haj
    have hji : j = i := by
      have := congrArg Prod.fst hqe
      simpa using this
    omega

theorem concat_metrics_uuid_nodup (ml : List (List MetricRow))
    (labels : List ℕ) :
    ((attachCellIds ((tagMetrics ml labels).flatten.insertionSort
        probeDepthLE)).map (fun m => m.uuid)).Nodup := by
  rw [attachCellIds_map_uuid]
  have hperm := (List.perm_insertionSort probeDepthLE
    (tagMetrics ml labels).flatten).map (fun m : CMetricRow => m.uuid)
  exact hperm.nodup_iff.mpr (tagMetrics_uuid_nodup ml labels)

theorem tagMetrics_flatten_mem (ml : List (List MetricRow)) (labels : List ℕ)
    (m : CMetricRow) (hm : m ∈ (tagMetrics ml labels).flatten) :
    m.uuid.1 < labels.length ∧ m.probe = labels.getD m.uuid.1 0 := by
  rw [List.mem_flatten] at hm
  obtain ⟨l, hl, hml⟩ := hm
  simp only [tagMetrics, List.mem_map, List.mem_range] at hl
  obtain ⟨ii, hii, rfl⟩ := hl
  rw [List.mem_map] at hml
  obtain ⟨p, hp, rfl⟩ := hml
  exact ⟨hii, rfl⟩

theorem attachCellIds_mem_src (L : List CMetricRow) (m : CMetricRow)
    (hm : m ∈ attachCellIds L) :
    ∃ m0 ∈ L, m.probe = m0.probe ∧ m.uuid = m0.uuid := by
  unfold attachCellIds at hm
  rw [List.mem_map] at hm
  obtain ⟨p, hp, rfl⟩ := hm
  refine ⟨p.2, ?_, rfl, rfl⟩
  have hsnd : p.2 ∈ L.enum.map Prod.snd := List.mem_map_of_mem _ hp
  rwa [List.enum_map_snd] at hsnd

theorem concat_metrics_probe_tag (ml : List (List MetricRow))
    (labels : List ℕ) (m : CMetricRow)
    (hm : m ∈ attachCellIds ((tagMetrics ml labels).flatten.insertionSort
      probeDepthLE)) :
    m.uuid.1 < labels.length ∧ m.probe = labels.getD m.uuid.1 0 := by
  obtain ⟨m0, hm0, hpr, hu⟩ := attachCellIds_mem_src _ _ hm
  have hm0' : m0 ∈ (tagMetrics ml labels).flatten :=
    (List.perm_insertionSort probeDepthLE _).subset hm0
  obtain ⟨h1, h2⟩ := tagMetrics_flatten_mem ml labels m0 hm0'
  rw [hpr, hu]
  exact ⟨h1, h2⟩

theorem tagSpikes_flatten_mem (sl : List (List SpikeRow))
    (ml : List (List MetricRow)) (labels : List ℕ) (s : CSpikeRow)
    (hs : s ∈ (tagSpikes sl ml labels).flatten) :
    s.probe = labels.getD s.uuid.1 0 := by
  rw [List.mem_flatten] at hs
  obtain ⟨l, hl, hsl⟩ := hs
  simp only [tagSpikes, List.mem_map, List.mem_range] at hl
  obtain ⟨ii, hii, rfl⟩ := hl
  rw [List.mem_flatMap] at hsl
  obtain ⟨s0, hs0, hsm⟩ := hsl
  rw [List.mem_map] at hsm
  obtain ⟨m, hmf, rfl⟩ := hsm
  have hmem : m ∈ (tagMetrics ml labels).getD ii [] :=
    (List.mem_filter.mp hmf).1
  have hgd : (tagMetrics ml labels).getD ii []
      = ((ml.getD ii []).enum).map (fun p =>
        ({ cluster_id := p.2.cluster_id, depth := p.2.depth,
           probe := labels.getD ii 0, uuid := (ii, p.1),
           cell_id := 0 } : CMetricRow)) := by
    rw [tagMetrics, List.getD_eq_getElem _ _ (by simpa using hii)]
    simp
  rw [hgd, List.mem_map] at hmem
  obtain ⟨p, hp, rfl⟩ := hmem
  rfl

theorem concat_spikes_probe_tag (sl : List (List SpikeRow))
    (ml : List (List MetricRow)) (labels : List ℕ) (s : CSpikeRow)
    (hs : s ∈ (concatenate_probes sl ml labels).1) :
    s.probe = labels.getD s.uuid.1 0 := by
  unfold concatenate_probes at hs
  dsimp only at hs
  have hs2 := (List.perm_insertionSort _ _).subset hs
  rw [List.mem_flatMap] at hs2
  obtain ⟨s0, hs0, hsm⟩ := hs2
  rw [List.mem_map] at hsm
  obtain ⟨m, hmf, rfl⟩ := hsm
  exact tagSpikes_flatten_mem sl ml labels s0 hs0

/-- Claim C2 (amended): concatenate_probes gives every metrics row a fresh,
globally distinct uuid; tags every metrics and spikes row with its probe's
label; and recomputes cell_id as the contiguous range `[0, M)` in the order
of the lexicographic key (probe label, depth) — depth-ordered WITHIN each
probe and contiguous across the whole table, but probes concatenate in label
order rather than forming a single depth ordering across the union. -/
theorem concatenate_probes_props (spikes_list : List (List SpikeRow))
    (metrics_list : List (List MetricRow)) (labels : List ℕ) :
    ((concatenate_probes spikes_list metrics_list labels).2.map
        (fun m => m.cell_id)
      = List.range
        (concatenate_probes spikes_list metrics_list labels).2.length)
    ∧ (concatenate_probes spikes_list metrics_list labels).2.Pairwise
        probeDepthLE
    ∧ ((concatenate_probes spikes_list metrics_list labels).2.map
        (fun m => m.uuid)).Nodup
    ∧ (∀ m ∈ (concatenate_probes spikes_list metrics_list labels).2,
        m.uuid.1 < labels.length ∧ m.probe = labels.getD m.uuid.1 0)
    ∧ (∀ s ∈ (concatenate_probes spikes_list metrics_list labels).1,
        s.probe = labels.getD s.uuid.1 0) := by
  refine ⟨attachCellIds_cellids _, attachCellIds_pairwise _,
    concat_metrics_uuid_nodup _ _, ?_, ?_⟩
  · intro m hm
    exact concat_metrics_probe_tag _ _ m hm
  · intro s hs
    exact concat_spikes_probe_tag _ _ _ s hs

/-- `np.arange(start, stop, step)` for positive step: the
`ceil((stop-start)/step)` values `start + k*step`. -/
def arange (start stop step : ℚ) : List ℚ :=
  (List.range (((stop - start) / step).ceil.toNat)).map
    (fun (k : ℕ) => start + (k : ℚ) * step)

/-- Membership test of `np.histogram`'s bin `i`: right-open, except that the
final bin (`i = len(bins) - 2`) includes its right edge. -/
def binPred (bins : List ℚ) (i : ℕ) (v : ℚ) : Bool :=
  if i + 2 < bins.length then
    decide (bins.getD i 0 ≤ v ∧ v < bins.getD (i + 1) 0)
  else
    decide (bins.getD i 0 ≤ v ∧ v ≤ bins.getD (i + 1) 0)

/-- `np.histogram(vals, bins)[0]`: one count per consecutive edge pair. -/
def histogram (vals : List ℚ) (bins : List ℚ) : List ℕ :=
  (List.range (bins.length - 1)).map (fun i => vals.countP (binPred bins i))

/-- proc.bin_trains.  `spikes` is the parallel (ts, idx) pair of arrays;
`init` models the contents of the uninitialized `np.empty` raster (the final
column is never written); `max_time = none` is the default `np.max(ts)`
(embedded as a fold; the python errors on an empty array, and the theorems
about the default supply a nonempty input).  The raster function returns
`init` outside the allocated `n_neurons × len(bins)` block. -/
def bin_trains (init : ℕ → ℕ → ℚ) (spikes : List (ℚ × ℕ))
    (max_time : Option ℚ) (binsize start_time : ℚ) :
    (ℕ → ℕ → ℚ) × List ℕ × List ℚ :=
  let mt := max_time.getD ((spikes.map Prod.fst).foldr max 0)
  let n_neurons := (spikes.map Prod.snd).foldr max 0 + 1
  let cell_id := List.range n_neurons
  let bins := arange start_time mt binsize
  let kept := (spikes.filter (fun p => decide (start_time < p.1))).filter
      (fun p => decide (p.1 < mt))
  let raster := fun cell k =>
    if cell < n_neurons ∧ k + 1 < bins.length then
      ((histogram ((kept.filter (fun p => p.2 == cell)).map Prod.fst)
        bins).getD k 0 : ℚ)
    else init cell k
  (raster, cell_id, bins)

/-- Modelled from the claim's words (for the counterexample only): the number
of the cell's spikes with timestamp in `[start_time, max_time)` falling in
bin `k = [bins[k], bins[k+1])`. -/
def claimBinCount (spikes : List (ℚ × ℕ)) (cell k : ℕ) (bins : List ℚ)
    (start_time max_time : ℚ) : ℕ :=
  spikes.countP (fun p => decide (p.2 = cell ∧ start_time ≤ p.1
    ∧ p.1 < max_time ∧ bins.getD k 0 ≤ p.1 ∧ p.1 < bins.getD (k + 1) 0))

theorem arange_5_7_1 : arange 5 7 1 = [5, 6] := by
  unfold arange
  rw [show ((7 : ℚ) - 5) / 1 = 2 by norm_num]
  rw [show ((2 : ℚ).ceil).toNat = 2 from by decide]
  rw [show List.range 2 = [0, 1] from rfl]
  simp only [List.map_cons, List.map_nil, Nat.cast_zero, Nat.cast_one]
  norm_num

/-- Claim C8 counterexample: a single spike exactly at `start_time = 5`, with
`max_time = 7`, binsize 1.  The spike lies in `[start_time, max_time)` and in
bin 0 = `[5, 6)`, so the claim expects entry (0, 0) to be 1; the code's
strict prefilter `ts > start_time` discards it and the entry is 0. -/
theorem bin_trains_boundary_counterexample :
    (bin_trains (fun _ _ => 0) [(5, 0)] (some 7) 1 5).1 0 0 = 0
    ∧ claimBinCount [(5, 0)] 0 0
        (bin_trains (fun _ _ => 0) [(5, 0)] (some 7) 1 5).2.2 5 7 = 1 := by
  constructor
  · show (if 0 < (([((5 : ℚ), 0)].map Prod.snd).foldr max 0 + 1)
        ∧ 0 + 1 < (arange 5 7 1).length then _ else _) = (0 : ℚ)
    rw [if_pos (by rw [arange_5_7_1]; constructor <;> norm_num)]
    norm_num [histogram, arange_5_7_1, List.filter, binPred]
  · show ([((5 : ℚ), 0)].countP _) = 1
    have hbins : (bin_trains (fun _ _ => (0 : ℚ)) [(5, 0)] (some 7) 1 5).2.2
        = [5, 6] := arange_5_7_1
    rw [hbins]
    norm_num [List.countP_cons]

theorem bin_trains_entry (init : ℕ → ℕ → ℚ) (spikes : List (ℚ × ℕ))
    (mt binsize start_time : ℚ) (cell k : ℕ)
    (hcell : cell < (spikes.map Prod.snd).foldr max 0 + 1)
    (hk : k + 1 < (arange start_time mt binsize).length) :
    (bin_trains init spikes (some mt) binsize start_time).1 cell k
      = (spikes.countP (fun p => binPred (arange start_time mt binsize) k p.1
          && (p.2 == cell) && decide (p.1 < mt)
          && decide (start_time < p.1)) : ℚ) := by
  unfold bin_trains
  dsimp only
  simp only [Option.getD_some]
  rw [if_pos ⟨hcell, hk⟩]
  have hhist : (histogram
      ((((spikes.filter (fun p => decide (start_time < p.1))).filter
        (fun p => decide (p.1 < mt))).filter (fun p => p.2 == cell)).map
        Prod.fst) (arange start_time mt binsize)).getD k 0
      = spikes.countP (fun p => binPred (arange start_time mt binsize) k p.1
          && (p.2 == cell) && decide (p.1 < mt)
          && decide (start_time < p.1)) := by
    unfold histogram
    rw [List.getD_eq_getElem _ _ (by
      rw [List.length_map, List.length_range]; omega)]
    rw [List.getElem_map, List.getElem_range, List.countP_map,
      List.countP_filter, List.countP_filter, List.countP_filter]
    rfl
  rw [hhist]

theorem bin_trains_last_column (init : ℕ → ℕ → ℚ) (spikes : List (ℚ × ℕ))
    (max_time : Option ℚ) (binsize start_time : ℚ) (cell : ℕ) :
    (bin_trains init spikes max_time binsize start_time).1 cell
        ((bin_trains init spikes max_time binsize start_time).2.2.length - 1)
      = init cell
        ((bin_trains init spikes max_time binsize start_time).2.2.length
          - 1) := by
  unfold bin_trains
  dsimp only
  rw [if_neg]
  rintro ⟨-, h2⟩
  omega

theorem bin_trains_outside_range (init : ℕ → ℕ → ℚ) (spikes : List (ℚ × ℕ))
    (t : ℚ) (i : ℕ) (mt binsize start_time : ℚ)
    (hout : t < start_time ∨ mt ≤ t) (cell k : ℕ)
    (hcell : cell < (spikes.map Prod.snd).foldr max 0 + 1) :
    (bin_trains init ((t, i) :: spikes) (some mt) binsize start_time).1 cell k
      = (bin_trains init spikes (some mt) binsize start_time).1 cell k := by
  unfold bin_trains
  dsimp only
  simp only [Option.getD_some]
  have hkept : (((t, i) :: spikes).filter
        (fun p => decide (start_time < p.1))).filter
        (fun p => decide (p.1 < mt))
      = (spikes.filter (fun p => decide (start_time < p.1))).filter
        (fun p => decide (p.1 < mt)) := by
    rcases hout with h | h
    · rw [List.filter_cons_of_neg (by simpa using not_lt.mpr (le_of_lt h))]
    · by_cases hst : start_time < t
      · rw [List.filter_cons_of_pos (by simpa using hst),
          List.filter_cons_of_neg (by simpa using not_lt.mpr h)]
      · rw [List.filter_cons_of_neg (by simpa using hst)]
  rw [hkept]
  have hnn : (spikes.map Prod.snd).foldr max 0 + 1
      ≤ (((t, i) :: spikes).map Prod.snd).foldr max 0 + 1 := by
    simp only [List.map_cons, List.foldr_cons]
    have := le_max_right i ((spikes.map Prod.snd).foldr max 0)
    omega
  by_cases hkb : k + 1 < (arange start_time mt binsize).length
  · rw [if_pos ⟨lt_of_lt_of_le hcell hnn, hkb⟩, if_pos ⟨hcell, hkb⟩]
  · rw [if_neg (by tauto), if_neg (by tauto)]

/-- Claim C8 (amended): (1) each interior raster entry `(cell, k)` counts the
spikes of that cell with `start_time < ts < max_time` (STRICT at
start_time) that satisfy numpy's bin membership (`[bins[k], bins[k+1])`,
with the final histogram bin right-closed); (2) the final raster column is
never written and keeps the uninitialized `np.empty` contents; (3) a spike
outside `[start_time, max_time)` contributes to no bin: adding it changes no
entry over the original cell range. -/
theorem bin_trains_props (init : ℕ → ℕ → ℚ) (spikes : List (ℚ × ℕ))
    (mt binsize start_time : ℚ) :
    (∀ cell k, cell < (spikes.map Prod.snd).foldr max 0 + 1 →
      k + 1 < (arange start_time mt binsize).length →
      (bin_trains init spikes (some mt) binsize start_time).1 cell k
        = (spikes.countP (fun p =>
            binPred (arange start_time mt binsize) k p.1
            && (p.2 == cell) && decide (p.1 < mt)
            && decide (start_time < p.1)) : ℚ))
    ∧ (∀ cell, (bin_trains init spikes (some mt) binsize start_time).1 cell
        ((bin_trains init spikes (some mt) binsize start_time).2.2.length - 1)
        = init cell
          ((bin_trains init spikes (some mt) binsize
            start_time).2.2.length - 1))
    ∧ (∀ (t : ℚ) (i : ℕ), t < start_time ∨ mt ≤ t → ∀ cell k,
        cell < (spikes.map Prod.snd).foldr max 0 + 1 →
        (bin_trains init ((t, i) :: spikes) (some mt) binsize
          start_time).1 cell k
          = (bin_trains init spikes (some mt) binsize start_time).1 cell k) :=
  ⟨fun cell k hc hk => bin_trains_entry init spikes mt binsize start_time
      cell k hc hk,
   fun cell => bin_trains_last_column init spikes (some mt) binsize
      start_time cell,
   fun t i hout cell k hc => bin_trains_outside_range init spikes t i mt
      binsize start_time hout cell k hc⟩

/-- Witness for C8 (amended) at a single spike (ts 6, cell 0), binning
`[5, 7)` at width 1. -/
theorem bin_trains_props_witness :
    (bin_trains (fun _ _ => 0) [(6, 0)] (some 7) 1 5).1 0 0
      = (([((6 : ℚ), (0 : ℕ))].countP (fun p =>
          binPred (arange 5 7 1) 0 p.1
          && (p.2 == 0) && decide (p.1 < 7) && decide (5 < p.1))) : ℚ) :=
  (bin_trains_props (fun _ _ => 0) [(6, 0)] 7 1 5).1 0 0 (by decide)
    (by rw [arange_5_7_1]; norm_num)

/-- Python `int()` of a rational: truncation toward zero. -/
def pyInt (q : ℚ) : ℤ := q.num / (q.den : ℤ)

/-- `dt = tvec[1] - tvec[0]` of get_eta. -/
def eta_dt (tvec : List ℚ) : ℚ := tvec.getD 1 0 - tvec.getD 0 0

/-- `win_samps_pre = int(pre_win/dt)`. -/
def eta_wpre (tvec : List ℚ) (pre_win : ℚ) : ℕ :=
  (pyInt (pre_win / eta_dt tvec)).toNat

/-- `win_samps_post = int(post_win/dt)`. -/
def eta_wpost (tvec : List ℚ) (post : ℚ) : ℕ :=
  (pyInt (post / eta_dt tvec)).toNat

/-- The outputs of proc.get_eta; per-offset statistics are functions of the
row index `k`, the snippet matrix is kept as its list of per-event columns. -/
structure Eta where
  cols : List (List ℚ)
  mean : ℕ → ℚ
  sem : ℕ → ℚ
  std : ℕ → ℚ
  t : List ℚ
  lb : ℕ → ℚ
  ub : ℕ → ℚ

/-- proc.get_eta: nearest-sample lookup of each event time, a fixed-size
zeros matrix with one column per event, the in-range events' columns
overwritten with the signal slice, and nanmean/nanstd statistics over the
event axis (the zero columns of skipped events included).  `sqrtFn`
abstracts `np.sqrt` (the ℚ embedding has no exact square root); it is
applied exactly where the source applies np.sqrt.  `post_win = none` is the
python default `post_win=pre_win`.  The python asserts
`len(tvec) == len(x)`, carried as a hypothesis of the theorems. -/
def get_eta (sqrtFn : ℚ → ℚ) (x tvec ts : List ℚ) (pre_win : ℚ)
    (post_win : Option ℚ) : Eta :=
  let post := post_win.getD pre_win
  let samps := ts.map (fun t => searchsorted tvec t)
  let wpre := eta_wpre tvec pre_win
  let wpost := eta_wpost tvec post
  let n := samps.length
  let col := fun (samp : ℕ) =>
    if samp < wpre ∨ x.length < samp + wpost then
      List.replicate (wpre + wpost) (0 : ℚ)
    else (x.drop (samp - wpre)).take (wpre + wpost)
  let cols := samps.map col
  let mean := fun k => (cols.map (fun c => c.getD k 0)).sum / (n : ℚ)
  let std := fun k =>
    sqrtFn ((cols.map (fun c => (c.getD k 0 - mean k) ^ 2)).sum / (n : ℚ))
  let sem := fun k => std k / sqrtFn (n : ℚ)
  { cols := cols, mean := mean, sem := sem, std := std,
    t := linspace (-pre_win) post (wpre + wpost),
    lb := fun k => mean k - sem k, ub := fun k => mean k + sem k }

theorem sum_map_ite_zero (l : List ℕ) (p : ℕ → Bool) (g : ℕ → ℚ) :
    (l.map (fun a => if p a then g a else 0)).sum
      = ((l.filter p).map g).sum := by
  induction l with
  | nil => rfl
  | cons a t ih =>
    by_cases h : p a = true
    · simp only [List.map_cons, List.sum_cons, if_pos h,
        List.filter_cons_of_pos h]
      rw [ih]
    · simp only [List.map_cons, List.sum_cons, if_neg h,
        List.filter_cons_of_neg h]
      rw [ih, zero_add]

theorem sum_map_ite_const (l : List ℕ) (p : ℕ → Bool) (g : ℕ → ℚ) (c : ℚ) :
    (l.map (fun a => if p a then g a else c)).sum
      = ((l.filter p).map g).sum
        + ((l.length - (l.filter p).length : ℕ) : ℚ) * c := by
  induction l with
  | nil => simp
  | cons a t ih =>
    have hle : (t.filter p).length ≤ t.length := t.length_filter_le p
    by_cases h : p a = true
    · simp only [List.map_cons, List.sum_cons, if_pos h,
        List.filter_cons_of_pos h, List.length_cons]
      rw [ih]
      have harith : t.length + 1 - ((t.filter p).length + 1)
          = t.length - (t.filter p).length := by omega
      rw [harith]
      ring
    · simp only [List.map_cons, List.sum_cons, if_neg h,
        List.filter_cons_of_neg h, List.length_cons]
      rw [ih]
      have harith : t.length + 1 - (t.filter p).length
          = (t.length - (t.filter p).length) + 1 := by omega
      rw [harith]
      push_cast
      ring

theorem col_getD (x : List ℚ) (wpre wpost samp k : ℕ) (hk : k < wpre + wpost) :
    (if samp < wpre ∨ x.length < samp + wpost then
       List.replicate (wpre + wpost) (0 : ℚ)
     else (x.drop (samp - wpre)).take (wpre + wpost)).getD k 0
    = if decide (wpre ≤ samp ∧ samp + wpost ≤ x.length) = true then
        x.getD (samp - wpre + k) 0
      else 0 := by
  by_cases h : samp < wpre ∨ x.length < samp + wpost
  · rw [if_pos h, if_neg (by simp only [decide_eq_true_eq]; omega)]
    rcases lt_or_ge k (wpre + wpost) with hlt | hge
    · rw [List.getD_eq_getElem _ _ (by simpa using hlt)]
      simp
    · omega
  · push_neg at h
    obtain ⟨h1, h2⟩ := h
    rw [if_neg (by omega), if_pos (by simp only [decide_eq_true_eq]; exact ⟨h1, h2⟩)]
    have hidx : samp - wpre + k < x.length := by omega
    rw [List.getD_eq_getElem _ _ (by
        rw [List.length_take, List.length_drop]
        omega),
      List.getD_eq_getElem _ _ hidx]
    rw [List.getElem_take, List.getElem_drop]

theorem eta_mean_split (x : List ℚ) (wpre wpost : ℕ) (samps : List ℕ)
    (k : ℕ) (hk : k < wpre + wpost) :
    (List.map (fun c : List ℚ => c.getD k 0)
      (samps.map (fun samp =>
        if samp < wpre ∨ x.length < samp + wpost then
          List.replicate (wpre + wpost) (0 : ℚ)
        else (x.drop (samp - wpre)).take (wpre + wpost)))).sum
    = ((samps.filter (fun samp =>
          decide (wpre ≤ samp ∧ samp + wpost ≤ x.length))).map
        (fun samp => x.getD (samp - wpre + k) 0)).sum := by
  rw [List.map_map]
  rw [show ((fun c : List ℚ => c.getD k 0) ∘ (fun samp =>
      if samp < wpre ∨ x.length < samp + wpost then
        List.replicate (wpre + wpost) (0 : ℚ)
      else (x.drop (samp - wpre)).take (wpre + wpost)))
      = fun samp => if decide (wpre ≤ samp ∧ samp + wpost ≤ x.length) = true
          then x.getD (samp - wpre + k) 0 else 0 from
    funext (fun samp => col_getD x wpre wpost samp k hk)]
  exact sum_map_ite_zero samps _ _

theorem eta_std_split (x : List ℚ) (wpre wpost : ℕ) (samps : List ℕ)
    (k : ℕ) (m : ℚ) (hk : k < wpre + wpost) :
    (List.map (fun c : List ℚ => (c.getD k 0 - m) ^ 2)
      (samps.map (fun samp =>
        if samp < wpre ∨ x.length < samp + wpost then
          List.replicate (wpre + wpost) (0 : ℚ)
        else (x.drop (samp - wpre)).take (wpre + wpost)))).sum
    = ((samps.filter (fun samp =>
          decide (wpre ≤ samp ∧ samp + wpost ≤ x.length))).map
        (fun samp => (x.getD (samp - wpre + k) 0 - m) ^ 2)).sum
      + ((samps.length - (samps.filter (fun samp =>
          decide (wpre ≤ samp ∧ samp + wpost ≤ x.length))).length : ℕ) : ℚ)
        * m ^ 2 := by
  rw [List.map_map]
  rw [show ((fun c : List ℚ => (c.getD k 0 - m) ^ 2) ∘ (fun samp =>
      if samp < wpre ∨ x.length < samp + wpost then
        List.replicate (wpre + wpost) (0 : ℚ)
      else (x.drop (samp - wpre)).take (wpre + wpost)))
      = fun samp => if decide (wpre ≤ samp ∧ samp + wpost ≤ x.length) = true
          then (x.getD (samp - wpre + k) 0 - m) ^ 2 else m ^ 2 from
    funext (fun samp => by
      simp only [Function.comp_apply]
      rw [col_getD x wpre wpost samp k hk]
      by_cases h : decide (wpre ≤ samp ∧ samp + wpost ≤ x.length) = true
      · rw [if_pos h, if_pos h]
      · rw [if_neg h, if_neg h]
        ring)]
  exact sum_map_ite_const samps _ _ _

/-- Claim C9: get_eta keeps one column per event (count = number of events);
an event whose window runs off either end of the signal is skipped but not
excluded — its column stays all zeros; and the statistics are computed
across ALL event columns: the mean at offset k sums the in-range events'
samples but divides by the TOTAL event count, the standard deviation's sum
of squared deviations charges each skipped event (mean k)^2, the standard
error is std/sqrt(total), and the confidence band edges are mean ± 1 SEM. -/
theorem get_eta_props (sqrtFn : ℚ → ℚ) (x tvec ts : List ℚ) (pre_win : ℚ)
    (post_win : Option ℚ) (hlen : tvec.length = x.length) :
    ((get_eta sqrtFn x tvec ts pre_win post_win).cols.length = ts.length)
    ∧ (∀ j, j < ts.length →
        searchsorted tvec (ts.getD j 0) < eta_wpre tvec pre_win
          ∨ x.length < searchsorted tvec (ts.getD j 0)
              + eta_wpost tvec (post_win.getD pre_win) →
        (get_eta sqrtFn x tvec ts pre_win post_win).cols.getD j []
          = List.replicate (eta_wpre tvec pre_win
              + eta_wpost tvec (post_win.getD pre_win)) 0)
    ∧ (∀ k, k < eta_wpre tvec pre_win
          + eta_wpost tvec (post_win.getD pre_win) →
        (get_eta sqrtFn x tvec ts pre_win post_win).mean k
          = (((ts.map (fun t => searchsorted tvec t)).filter (fun samp =>
                decide (eta_wpre tvec pre_win ≤ samp
                  ∧ samp + eta_wpost tvec (post_win.getD pre_win)
                    ≤ x.length))).map (fun samp =>
                x.getD (samp - eta_wpre tvec pre_win + k) 0)).sum
            / (ts.length : ℚ))
    ∧ (∀ k, k < eta_wpre tvec pre_win
          + eta_wpost tvec (post_win.getD pre_win) →
        (get_eta sqrtFn x tvec ts pre_win post_win).std k
          = sqrtFn (((((ts.map (fun t => searchsorted tvec t)).filter
                (fun samp => decide (eta_wpre tvec pre_win ≤ samp
                  ∧ samp + eta_wpost tvec (post_win.getD pre_win)
                    ≤ x.length))).map (fun samp =>
                (x.getD (samp - eta_wpre tvec pre_win + k) 0
                  - (get_eta sqrtFn x tvec ts pre_win post_win).mean k)
                  ^ 2)).sum
              + ((ts.length - ((ts.map (fun t => searchsorted tvec t)).filter
                  (fun samp => decide (eta_wpre tvec pre_win ≤ samp
                    ∧ samp + eta_wpost tvec (post_win.getD pre_win)
                      ≤ x.length))).length : ℕ) : ℚ)
                * ((get_eta sqrtFn x tvec ts pre_win post_win).mean k) ^ 2)
            / (ts.length : ℚ)))
    ∧ (∀ k, (get_eta sqrtFn x tvec ts pre_win post_win).sem k
          = (get_eta sqrtFn x tvec ts pre_win post_win).std k
            / sqrtFn (ts.length : ℚ)
        ∧ (get_eta sqrtFn x tvec ts pre_win post_win).lb k
          = (get_eta sqrtFn x tvec ts pre_win post_win).mean k
            - (get_eta sqrtFn x tvec ts pre_win post_win).sem k
        ∧ (get_eta sqrtFn x tvec ts pre_win post_win).ub k
          = (get_eta sqrtFn x tvec ts pre_win post_win).mean k
            + (get_eta sqrtFn x tvec ts pre_win post_win).sem k) := by
  refine ⟨?_, ?_, ?_, ?_, ?_⟩
  · unfold get_eta
    dsimp only
    rw [List.length_map, List.length_map]
  · intro j hj hcond
    unfold get_eta
    dsimp only
    rw [List.getD_eq_getElem _ _
        (by rw [List.length_map, List.length_map]; exact hj),
      List.getElem_map, List.getElem_map]
    rw [List.getD_eq_getElem _ _ hj] at hcond
    rw [if_pos hcond]
  · intro k hk
    unfold get_eta
    dsimp only
    rw [eta_mean_split x (eta_wpre tvec pre_win)
      (eta_wpost tvec (post_win.getD pre_win))
      (ts.map (fun t => searchsorted tvec t)) k hk]
    rw [List.length_map]
  · intro k hk
    unfold get_eta
    dsimp only
    rw [eta_std_split x (eta_wpre tvec pre_win)
      (eta_wpost tvec (post_win.getD pre_win))
      (ts.map (fun t => searchsorted tvec t)) k _ hk]
    rw [eta_mean_split x (eta_wpre tvec pre_win)
      (eta_wpost tvec (post_win.getD pre_win))
      (ts.map (fun t => searchsorted tvec t)) k hk]
    rw [List.length_map]
  · intro k
    unfold get_eta
    dsimp only
    rw [List.length_map]
    exact ⟨rfl, rfl, rfl⟩

/-- Witness for C9: signal `[1,2,3,4]` on times `[0,1,2,3]`, events at 2 and
10, window 1; the second event's sample index (4) runs past the end, so its
column is the zero column. -/
theorem get_eta_props_witness :
    (get_eta id [1, 2, 3, 4] [0, 1, 2, 3] [2, 10] 1 none).cols.getD 1 []
      = List.replicate (eta_wpre [0, 1, 2, 3] 1
          + eta_wpost [0, 1, 2, 3] ((none : Option ℚ).getD 1)) 0 := by
  have hw : eta_wpost ([0, 1, 2, 3] : List ℚ) ((none : Option ℚ).getD 1)
      = 1 := by
    norm_num [eta_wpost, eta_dt, pyInt, List.getD_cons_succ,
      List.getD_cons_zero]
  refine (get_eta_props id [1, 2, 3, 4] [0, 1, 2, 3] [2, 10] 1 none rfl).2.1 1
    (by norm_num) ?_
  right
  rw [hw]
  rw [show searchsorted [0, 1, 2, 3] (([2, 10] : List ℚ).getD 1 0) = 4 from
    by decide]
  norm_num
